import Mathlib

/-!
Verification of the webflow-scraper mirroring engine (src/scrape.mjs,
src/fix-links.mjs, src/rescrape-blank.mjs) against its specification.

The JavaScript sources are shallowly embedded: pure helpers become Lean
functions on String / List Char; the module-level mutable maps (the
downloadedAssets cache) become explicit state passed through and returned
by the embedded functions; network calls become an explicit environment
(a resolver standing for the WHATWG URL library and a fetch oracle), and
each embedded operation additionally reports which URLs it fetched, so
that at-most-once download claims can be stated by counting.

Strings are processed as List Char where induction is needed; the JS
regular expressions used by the sources (attribute rewriting, CSS url()
rewriting, the body-content probe) are embedded as deterministic scanners
whose behaviour coincides with the backtracking semantics of the concrete
patterns, as argued in the comments next to each scanner.

The file is organised as: all definitions first, then all theorems.
-/

/-! # Definitions -/

/-! ## Generic list and string helpers -/

/-- Membership test of one character list inside another, the embedding of
the JavaScript String.prototype.includes (an empty needle is contained in
every string). -/
def listContains (l pat : List Char) : Bool :=
  if pat.isPrefixOf l then true
  else match l with
    | [] => false
    | _ :: t => listContains t pat

/-- Substring test on strings, the embedding of s.includes(sub). -/
def jsIncludes (s sub : String) : Bool :=
  listContains s.toList sub.toList

/-- Embedding of the JavaScript s.startsWith(p) (expressed on character
lists so that concrete instances reduce by evaluation). -/
def jsStarts (s p : String) : Bool :=
  p.toList.isPrefixOf s.toList

/-! ## PathMapper: safeFileName (src/scrape.mjs lines 21-27, duplicated in
src/fix-links.mjs lines 6-11 and src/rescrape-blank.mjs lines 15-20)

JS source:
  let p = urlPath.split("?")[0].split("#")[0];
  if (p.endsWith("/")) p = p.slice(0, -1);
  if (p === "") return "index";
  return p.replace(/^\/+/, "");

split("?")[0] is the text before the first question mark, then
split("#")[0] keeps the text before the first hash; endsWith-and-slice
drops one trailing slash; the final replace strips every leading slash.
The steps after the query/fragment split are factored into safeFileTail so
the proofs can rewrite the scanned prefix in isolation. -/
def safeFileTail (p0 : List Char) : String :=
  let p1 := if p0.getLast? = some '/' then p0.dropLast else p0
  if p1 = [] then "index" else ⟨p1.dropWhile (· = '/')⟩

def safeFileName (urlPath : String) : String :=
  safeFileTail ((urlPath.toList.takeWhile (· ≠ '?')).takeWhile (· ≠ '#'))

/-! ## URL model

A parsed WHATWG URL as the sources consume it: scheme, hostname, optional
port, pathname, search and hash. The JS URL library itself is outside the
repository; embedded operations that resolve or parse URLs take the
resolution outcome as part of an explicit environment, and theorems state
their hypotheses in terms of that outcome. -/
structure Url where
  scheme : String
  hostname : String
  port : String
  pathname : String
  search : String
  hash : String
deriving DecidableEq, Repr

/-- Serialization of the origin, as new URL(x).origin produces it. -/
def Url.origin (u : Url) : String :=
  u.scheme ++ "://" ++ u.hostname ++ (if u.port = "" then "" else ":" ++ u.port)

/-- Serialization of the whole URL, as new URL(x).href produces it. -/
def Url.href (u : Url) : String :=
  u.origin ++ u.pathname ++ u.search ++ u.hash

/-- Embedding of normalizeOrigin (src/scrape.mjs lines 250-255): parse the
origin, drop one leading "www." from the hostname, re-serialize.  The JS
function takes an origin string and round-trips it through new URL; the
embedding works directly on the parsed form. -/
def normalizeOrigin (u : Url) : String :=
  let host := if jsStarts u.hostname "www." then ⟨u.hostname.toList.drop 4⟩
    else u.hostname
  u.scheme ++ "://" ++ host ++ (if u.port = "" then "" else ":" ++ u.port)

/-- The BASE constant of src/scrape.mjs line 7 in parsed form
(new URL("https://www.fruitpunch.ai")). -/
def BASE : Url :=
  { scheme := "https", hostname := "www.fruitpunch.ai", port := "",
    pathname := "/", search := "", hash := "" }

/-! ## AssetStore: downloadAsset (src/scrape.mjs lines 303-399) -/

/-- Embedding of the isCommonCDN allow-list check of downloadAsset
(src/scrape.mjs lines 342-349; the same expression appears in
src/rescrape-blank.mjs lines 133-140): each clause is a substring
containment test on the hostname. -/
def isCommonCDN (host : String) : Bool :=
  jsIncludes host "cdn.prod.website-files.com" ||
  jsIncludes host "fonts.googleapis.com" ||
  jsIncludes host "fonts.gstatic.com" ||
  jsIncludes host "cdn.jsdelivr.net" ||
  jsIncludes host "unpkg.com" ||
  jsIncludes host "ajax.googleapis.com" ||
  jsIncludes host "downloads.mailchimp.com" ||
  jsIncludes host "chimpstatic.com"

/-- Embedding of getAssetPath (src/scrape.mjs lines 303-316).  The function
is only invoked as getAssetPath(urlObj.pathname); a bare path such as
"/css/x.css" is not parseable by new URL without a base, so the try branch
throws and the catch branch
  'asset_' + url.replace(/[^a-zA-Z0-9]/g, '_').substring(0, 50)
is the one taken for every input that occurs; only it is embedded. -/
def getAssetPath (pathname : String) : String :=
  "asset_" ++ ⟨(pathname.toList.map
    (fun c => if c.isAlphanum then c else '_')).take 50⟩

/-- Embedding of Node path.extname restricted to the URL pathnames that
reach it: the extension of the final path segment, empty when the segment
has no dot or only a leading dot.  (Node additionally special-cases the
segment "..", which cannot occur in a URL pathname produced by the URL
parser used here.) -/
def extname (p : String) : String :=
  let base := (p.toList.reverse.takeWhile (· ≠ '/')).reverse
  match base with
  | [] => ""
  | _ :: rest =>
    let tail := rest.reverse.takeWhile (· ≠ '.')
    if tail.length = rest.length then "" else ⟨'.' :: tail.reverse⟩

/-- Embedding of the content-type sniffing chain of downloadAsset
(src/scrape.mjs lines 367-383), reached when the pathname has no
extension. -/
def extFromContentType (ct : String) : String :=
  if jsIncludes ct "css" then ".css"
  else if jsIncludes ct "javascript" then ".js"
  else if jsIncludes ct "image" then
    (if jsIncludes ct "png" then ".png"
     else if jsIncludes ct "jpg" || jsIncludes ct "jpeg" then ".jpg"
     else if jsIncludes ct "svg" then ".svg"
     else if jsIncludes ct "gif" then ".gif"
     else if jsIncludes ct "webp" then ".webp"
     else "")
  else if jsIncludes ct "font" || jsIncludes ct "woff" then
    (if jsIncludes ct "woff2" then ".woff2"
     else if jsIncludes ct "woff" then ".woff"
     else if jsIncludes ct "ttf" then ".ttf"
     else if jsIncludes ct "otf" then ".otf"
     else "")
  else ""

/-- Outcome of one fetch(absoluteUrl) call: a thrown network error, a
non-success HTTP status, or a success carrying the content-type header. -/
inductive FetchOutcome where
  | err : FetchOutcome
  | notOk : FetchOutcome
  | ok : String → FetchOutcome
deriving DecidableEq, Repr

/-- Environment for downloadAsset: the URL-library resolution
new URL(url, pageUrl) (none when it throws) and the network. -/
structure NetEnv where
  resolve : String → String → Option Url
  fetch : String → FetchOutcome

/-- Lookup in the downloadedAssets map (a JS Map keyed by absolute URL). -/
def mapGet (m : List (String × String)) (k : String) : Option String :=
  (m.find? (fun e => e.1 == k)).map (fun e => e.2)

/-- Map.set.  downloadAsset only inserts keys it has just found absent, so
insertion order append suffices. -/
def mapSet (m : List (String × String)) (k v : String) : List (String × String) :=
  m ++ [(k, v)]

/-- Result of one downloadAsset call: the returned local path (null becomes
none), the updated downloadedAssets map, and the list of absolute URLs
passed to fetch during the call. -/
structure DlResult where
  result : Option String
  state : List (String × String)
  fetches : List String
deriving DecidableEq, Repr

/-- Embedding of downloadAsset (src/scrape.mjs lines 318-399):
data/blob URLs are rejected; the URL is resolved against the page URL
(null on throw); the memoized map short-circuits with the stored path and
no fetch; eligibility requires same normalized origin as BASE or an
allow-listed CDN hostname; a thrown fetch or a non-ok status returns null
without recording anything; on success the extension is taken from the
pathname or sniffed from the content type, the flattened filename is
derived by getAssetPath, the relative path "_assets/<filename>" is
recorded in the map and returned. -/
def downloadAsset (env : NetEnv) (st : List (String × String))
    (url pageUrl : String) : DlResult :=
  if jsStarts url "data:" || jsStarts url "blob:" then ⟨none, st, []⟩
  else
    match env.resolve url pageUrl with
    | none => ⟨none, st, []⟩
    | some u =>
      let absoluteUrl := u.href
      match mapGet st absoluteUrl with
      | some p => ⟨some p, st, []⟩
      | none =>
        let isSameOrigin := normalizeOrigin u == normalizeOrigin BASE
        let isCDN := isCommonCDN u.hostname
        if !isSameOrigin && !isCDN then ⟨none, st, []⟩
        else
          match env.fetch absoluteUrl with
          | .err => ⟨none, st, [absoluteUrl]⟩
          | .notOk => ⟨none, st, [absoluteUrl]⟩
          | .ok ct =>
            let ext0 := extname u.pathname
            let ext := if ext0 = "" then extFromContentType ct else ext0
            let filename := getAssetPath u.pathname ++ ext
            let relativePath := "_assets/" ++ filename
            ⟨some relativePath, mapSet st absoluteUrl relativePath, [absoluteUrl]⟩

/-! ## MirrorReport merge (src/scrape.mjs lines 1283-1315) -/

structure FailEntry where
  url : String
  reason : String
deriving DecidableEq, Repr

structure RunResult where
  url : String
  ok : Bool
  reason : String
deriving DecidableEq, Repr

structure Report where
  total : Nat
  failed : List FailEntry
  assetsDownloaded : Nat
deriving DecidableEq, Repr

/-- The failed-entry list built from this run's results
(const failed = results.filter((r) => !r.ok), src/scrape.mjs line 1283;
only url and reason are carried into the report). -/
def failedOf (results : List RunResult) : List FailEntry :=
  (results.filter (fun r => !r.ok)).map (fun r => ⟨r.url, r.reason⟩)

/-- The new failures of this run that are not already in the persisted
failure list (src/scrape.mjs lines 1294-1295). -/
def newFailedOf (ex : Report) (results : List RunResult) : List FailEntry :=
  (failedOf results).filter
    (fun f => !((ex.failed.map (fun e => e.url)).contains f.url))

/-- The URLs that succeeded in this run (src/scrape.mjs line 1303). -/
def successUrlsOf (results : List RunResult) : List String :=
  (results.filter (fun r => r.ok)).map (fun r => r.url)

/-- Embedding of the report merge in the main IIFE (src/scrape.mjs lines
1286-1313).  A fresh report is built from this run; when a persisted report
exists, EITHER the not-yet-recorded failures are appended (when there is at
least one), OR — only otherwise, and only when some URL succeeded — the
succeeded URLs are pruned from the persisted failure list; when neither
branch fires the fresh report is kept. -/
def mergeReport (existing : Option Report) (urlCount : Nat)
    (results : List RunResult) (assetCount : Nat) : Report :=
  let fresh : Report := ⟨urlCount, failedOf results, assetCount⟩
  match existing with
  | none => fresh
  | some ex =>
    let newFailed := newFailedOf ex results
    if newFailed.length > 0 then
      { ex with failed := ex.failed ++ newFailed,
                total := max ex.total urlCount,
                assetsDownloaded := assetCount }
    else
      let successUrls := successUrlsOf results
      if successUrls.length > 0 then
        { ex with
          failed := ex.failed.filter (fun f => !(successUrls.contains f.url)),
          assetsDownloaded := assetCount }
      else fresh

/-- Concrete URL used by the C1/C6 witnesses: a same-site stylesheet. -/
def cssUrlA : Url :=
  { scheme := "https", hostname := "www.fruitpunch.ai", port := "",
    pathname := "/css/site.css", search := "", hash := "" }

/-- Concrete environment whose fetch succeeds, used by the C1 witness. -/
def envOk : NetEnv :=
  { resolve := fun u _ =>
      if u = "https://www.fruitpunch.ai/css/site.css" ∨ u = "/css/site.css"
      then some cssUrlA else none,
    fetch := fun _ => .ok "text/css" }

/-- Concrete environment whose fetch always reports a non-success status,
used for C6. -/
def envNotOk : NetEnv :=
  { resolve := fun u _ =>
      if u = "https://www.fruitpunch.ai/css/site.css" ∨ u = "/css/site.css"
      then some cssUrlA else none,
    fetch := fun _ => .notOk }

/-- Concrete cross-site URL whose hostname merely contains the allow-listed
name "unpkg.com" as a substring, used for C10. -/
def evilUrl : Url :=
  { scheme := "https", hostname := "unpkg.com.evil.example", port := "",
    pathname := "/lib.js", search := "", hash := "" }

/-- Concrete environment resolving only the C10 URL. -/
def envEvil : NetEnv :=
  { resolve := fun u _ =>
      if u = "https://unpkg.com.evil.example/lib.js" then some evilUrl else none,
    fetch := fun _ => .ok "text/javascript" }

/-- Concrete persisted report used by the C2 counterexample: one previously
failed URL. -/
def exReportC2 : Report :=
  ⟨2, [⟨"https://www.fruitpunch.ai/a/", "timeout"⟩], 3⟩

/-- Concrete run results used by the C2 counterexample: the previously
failed URL now succeeds, and a different URL newly fails. -/
def resultsC2 : List RunResult :=
  [⟨"https://www.fruitpunch.ai/a/", true, ""⟩,
   ⟨"https://www.fruitpunch.ai/b/", false, "timeout"⟩]

/-! ## Attribute regex scanner

Several passes of the sources rewrite attributes with the pattern
  LIT["']([^"']+)["']   (flags gi)
where LIT is the literal "href=" (src/scrape.mjs line 591, src/fix-links.mjs
line 25) or "srcset=" (src/scrape.mjs line 560).  The pattern is
deterministic: after the case-insensitive literal there must be one quote
character, then the greedy nonempty run of non-quote characters, which can
only stop at a quote or the end, then one closing quote (either kind).  No
backtracking can rescue a failed attempt, because shortening the greedy run
would place a non-quote character where a quote is required.  On failure the
JS engine restarts the search one character later; String.replace with the
g flag emits the unmatched character and continues, and on a match emits
the callback result and continues after the match.  tryAttr and attrReplace
below embed exactly this. -/

/-- Quote character test ( " or ' ). -/
def isQ (c : Char) : Bool := c = '"' || c = '\''

/-- Case-insensitive equality of two character lists. -/
def ciEqList : List Char → List Char → Bool
  | [], [] => true
  | a :: as, b :: bs => (a.toLower = b.toLower) && ciEqList as bs
  | _, _ => false

/-- Case-insensitive literal matcher: when cs starts with lit up to case,
returns the actually consumed characters and the remainder. -/
def ciPrefix : List Char → List Char → Option (List Char × List Char)
  | [], cs => some ([], cs)
  | _ :: _, [] => none
  | l :: ls, c :: cs =>
    if c.toLower = l.toLower then
      match ciPrefix ls cs with
      | some (a, r) => some (c :: a, r)
      | none => none
    else none

/-- One match attempt of LIT["']([^"']+)["'] at the head of cs: returns
(whole matched text, captured group, remainder after the match). -/
def tryAttr (lit : List Char) (cs : List Char) :
    Option (List Char × List Char × List Char) :=
  match ciPrefix lit cs with
  | none => none
  | some (litc, cs1) =>
    match cs1 with
    | [] => none
    | q1 :: cs2 =>
      if isQ q1 then
        if cs2.takeWhile (fun c => !(isQ c)) = [] then none
        else
          match cs2.dropWhile (fun c => !(isQ c)) with
          | [] => none
          | q2 :: rest =>
            some (litc ++ q1 :: (cs2.takeWhile (fun c => !(isQ c)) ++ [q2]),
                  cs2.takeWhile (fun c => !(isQ c)), rest)
      else none

/-- Fuel-indexed scanner loop; the fuel only serves to make the recursion
structural, and attrReplace supplies the input length, which the facts
proved below show is always sufficient. -/
def attrReplaceFuel (lit : List Char) (cb : String → String → String) :
    Nat → List Char → List Char
  | 0, _ => []
  | _ + 1, [] => []
  | fuel + 1, c :: t =>
    match tryAttr lit (c :: t) with
    | some (w, g, r) => (cb ⟨w⟩ ⟨g⟩).toList ++ attrReplaceFuel lit cb fuel r
    | none => c :: attrReplaceFuel lit cb fuel t

/-- Embedding of one String.replace(REGEX, cb) pass for the attribute
pattern: scan left to right, emit unmatched characters, replace each match
by the callback result applied to (whole, group). -/
def attrReplace (lit : List Char) (cb : String → String → String)
    (cs : List Char) : List Char :=
  attrReplaceFuel lit cb cs.length cs

/-- Embedding of the JavaScript String.prototype.replace with a plain
string pattern: replace the first occurrence only.  (With an empty pattern
JS inserts the replacement at the start; the prefix test covers that.) -/
def replaceFirstL (s pat rep : List Char) : List Char :=
  if pat.isPrefixOf s then rep ++ s.drop pat.length
  else
    match s with
    | [] => []
    | c :: cs => c :: replaceFirstL cs pat rep

def jsReplaceFirst (s pat rep : String) : String :=
  ⟨replaceFirstL s.toList pat.toList rep.toList⟩

/-! ## LinkResolver / link rewriting (src/scrape.mjs lines 579-651,
src/fix-links.mjs lines 19-78) -/

/-- The OUT constant (path.resolve("offline")): the mirror root.  The
resolve step only prepends the process working directory, which is
constant during a run, so the relative name stands for it. -/
def OUT : String := "offline"

/-- Embedding of path.join(a, b, c) for the shapes used here: empty middle
segments are skipped, the others are joined with single slashes. -/
def pathJoin3 (a b c : String) : String :=
  if b = "" then a ++ "/" ++ c else a ++ "/" ++ b ++ "/" ++ c

/-- Environment for link rewriting: the URL-library parse of an absolute
URL (new URL(href), none when it throws), relative resolution against the
page URL (new URL(href, pageUrl)), the fs.existsSync oracle on the target
file path, and path.relative(pageDir, targetFile) for the fixed directory
of the page being processed. -/
structure LinkEnv where
  parse : String → Option Url
  resolveRel : String → String → Option Url
  fileExists : String → Bool
  relPath : String → String

/-- Target-path classification of rewriteInternalLinks in src/scrape.mjs
(lines 598-633): absolute http(s) URLs are parsed and kept only when
same-site (null on parse throw or foreign origin); hrefs starting with "/"
are taken verbatim as site paths — note that this branch is tested before
the protocol-relative "//" guard, so "//host/path" is also treated as a
site path and the final protocol-relative else branch is unreachable;
remaining hrefs are resolved against the page URL and kept when
same-site. -/
def linkTarget (env : LinkEnv) (pageUrl href : String) : Option String :=
  if jsStarts href "http://" || jsStarts href "https://" then
    match env.parse href with
    | some hrefUrl =>
      if normalizeOrigin hrefUrl == normalizeOrigin BASE then some hrefUrl.pathname
      else none
    | none => none
  else if jsStarts href "/" then some href
  else if !(jsStarts href "//") then
    match env.resolveRel href pageUrl with
    | some ru =>
      if normalizeOrigin ru == normalizeOrigin BASE then some ru.pathname
      else none
    | none => none
  else none

/-- Embedding of the replace callback of rewriteInternalLinks in
src/scrape.mjs (lines 591-648): skip anchors, mailto:, tel:, javascript:,
data:, empty; classify the remaining href; when a target path was found
and is truthy, map it with safeFileName, and only when the mapped index
file already exists rewrite the first occurrence of the href inside the
match to the relative path of that file. -/
def scrapeLinksCb (env : LinkEnv) (pageUrl : String) (whole href : String) :
    String :=
  if jsStarts href "#" || jsStarts href "mailto:" || jsStarts href "tel:" ||
     jsStarts href "javascript:" || jsStarts href "data:" ||
     href = "#" || href = "" then whole
  else
    match linkTarget env pageUrl href with
    | none => whole
    | some targetPath =>
      if targetPath ≠ "" then
        let localPath := safeFileName targetPath
        let targetFile := pathJoin3 OUT localPath "index.html"
        if env.fileExists targetFile then
          jsReplaceFirst whole href (env.relPath targetFile)
        else whole
      else whole

/-- Whole-document internal-link rewriting of src/scrape.mjs:
html.replace(/href=["']([^"']+)["']/gi, cb). -/
def rewriteLinksScrape (env : LinkEnv) (pageUrl html : String) : String :=
  ⟨attrReplace "href=".toList (scrapeLinksCb env pageUrl) html.toList⟩

/-- Target-path classification of rewriteInternalLinks in
src/fix-links.mjs (lines 32-60): as in scrape.mjs for absolute URLs and
"/"-paths (with the same dead protocol-relative else branch), but relative
hrefs are skipped because the standalone pass has no page URL. -/
def fixLinksTarget (env : LinkEnv) (href : String) : Option String :=
  if jsStarts href "http://" || jsStarts href "https://" then
    match env.parse href with
    | some hrefUrl =>
      if normalizeOrigin hrefUrl == normalizeOrigin BASE then some hrefUrl.pathname
      else none
    | none => none
  else if jsStarts href "/" then some href
  else none

/-- Embedding of the replace callback of rewriteInternalLinks in
src/fix-links.mjs (lines 25-75). -/
def fixLinksCb (env : LinkEnv) (whole href : String) : String :=
  if jsStarts href "#" || jsStarts href "mailto:" || jsStarts href "tel:" ||
     jsStarts href "javascript:" || jsStarts href "data:" ||
     href = "#" || href = "" then whole
  else
    match fixLinksTarget env href with
    | none => whole
    | some targetPath =>
      if targetPath ≠ "" then
        let localPath := safeFileName targetPath
        let targetFile := pathJoin3 OUT localPath "index.html"
        if env.fileExists targetFile then
          jsReplaceFirst whole href (env.relPath targetFile)
        else whole
      else whole

/-- Whole-document link repair of src/fix-links.mjs:
html.replace(/href=["']([^"']+)["']/gi, cb). -/
def rewriteLinksFix (env : LinkEnv) (html : String) : String :=
  ⟨attrReplace "href=".toList (fixLinksCb env) html.toList⟩

/-! ## PageTransformer attribute callbacks (src/scrape.mjs lines 520-577)

The link/script/img rewriting passes of rewriteHtml call
match.replace(url, relativePath) when the asset map holds a local path for
the captured URL and return the match unchanged otherwise; the srcset pass
rebuilds the whole attribute unconditionally.  The callbacks are embedded
below; relPath stands for
path.relative(pageDir, path.join(OUT, localPath)).replace(/\\/g, "/")
with pageDir fixed for the page being processed. -/

/-- Truthy map lookup: the JS pattern const v = map.get(k); if (v) ...
treats a stored empty string like a miss. -/
def truthyGet (m : List (String × String)) (k : String) : Option String :=
  match mapGet m k with
  | some v => if v = "" then none else some v
  | none => none

/-- Callback of the link-href rewriting pass (src/scrape.mjs lines
521-531). -/
def linkHrefCb (m : List (String × String)) (relp : String → String)
    (whole href : String) : String :=
  if jsStarts href "#" || jsStarts href "mailto:" || jsStarts href "tel:" then
    whole
  else
    match truthyGet m href with
    | some lp => jsReplaceFirst whole href (relp lp)
    | none => whole

/-- Callback of the script-src rewriting pass (src/scrape.mjs lines
534-544). -/
def scriptSrcCb (m : List (String × String)) (relp : String → String)
    (whole src : String) : String :=
  if jsStarts src "data:" || jsStarts src "blob:" then whole
  else
    match truthyGet m src with
    | some lp => jsReplaceFirst whole src (relp lp)
    | none => whole

/-- Callback of the img-src rewriting pass (src/scrape.mjs lines
547-557). -/
def imgSrcCb (m : List (String × String)) (relp : String → String)
    (whole src : String) : String :=
  if jsStarts src "data:" || jsStarts src "blob:" then whole
  else
    match truthyGet m src with
    | some lp => jsReplaceFirst whole src (relp lp)
    | none => whole

/-- Embedding of the JavaScript String.prototype.split(sep) for a
one-character separator: "".split gives [""], separators delimit possibly
empty fields. -/
def splitOnChar (sep : Char) : List Char → List (List Char)
  | [] => [[]]
  | c :: t =>
    let r := splitOnChar sep t
    if c = sep then [] :: r
    else
      match r with
      | h :: t2 => (c :: h) :: t2
      | [] => [[c]]

/-- Embedding of the JavaScript String.prototype.trim on character lists
(whitespace stripped from both ends). -/
def trimL (l : List Char) : List Char :=
  ((l.dropWhile (fun c => c.isWhitespace)).reverse.dropWhile
    (fun c => c.isWhitespace)).reverse

/-- Fuel-indexed word splitter; splitWsWords supplies the input length,
sufficient by the facts proved below. -/
def splitWsFuel : Nat → List Char → List (List Char)
  | 0, _ => []
  | _ + 1, [] => []
  | fuel + 1, c0 :: t0 =>
    ((c0 :: t0).takeWhile (fun x => !(x.isWhitespace))) ::
      splitWsFuel fuel (((c0 :: t0).dropWhile
        (fun x => !(x.isWhitespace))).dropWhile (fun x => x.isWhitespace))

/-- Embedding of s.split(/\s+/) for the already trimmed strings it is
applied to: maximal whitespace runs separate the tokens; the empty string
is handled by splitWsTrimmed below. -/
def splitWsWords (l : List Char) : List (List Char) :=
  splitWsFuel l.length l

/-- JS "".split on a regex yields [""]; nonempty trimmed strings go
through splitWsWords. -/
def splitWsTrimmed (l : List Char) : List (List Char) :=
  match l with
  | [] => [[]]
  | _ => splitWsWords l

/-- Embedding of one srcset entry transformation (src/scrape.mjs lines
561-572): trim the entry, split it on whitespace into the URL and its
descriptors, keep data/blob URLs, replace a mapped URL by its local
relative path re-joined with single spaces, otherwise return the trimmed
entry. -/
def srcsetPart (m : List (String × String)) (relp : String → String)
    (part : List Char) : List Char :=
  let t := trimL part
  match splitWsTrimmed t with
  | [] => t
  | url :: rest =>
    if jsStarts ⟨url⟩ "data:" || jsStarts ⟨url⟩ "blob:" then t
    else
      match truthyGet m ⟨url⟩ with
      | some lp => List.intercalate [' '] ((relp lp).toList :: rest)
      | none => t

/-- Callback of the srcset rewriting pass (src/scrape.mjs lines 560-574):
the attribute is rebuilt as srcset="..." with the transformed entries
joined by ", " — unconditionally, even when nothing was mapped. -/
def srcsetCb (m : List (String × String)) (relp : String → String)
    (whole g : String) : String :=
  ⟨("srcset=".toList ++ '"' ::
    (List.intercalate (", ".toList)
      ((splitOnChar ',' g.toList).map (srcsetPart m relp))) ++ ['"'])⟩

/-- The srcset rewriting pass of rewriteHtml:
html.replace(/srcset=["']([^"']+)["']/gi, cb). -/
def srcsetPass (m : List (String × String)) (relp : String → String)
    (html : String) : String :=
  ⟨attrReplace "srcset=".toList (srcsetCb m relp) html.toList⟩

/-- Concrete link environment for the C7 counterexample: the mirror
contains a page directory whose name came from a protocol-relative href,
and nothing else; URL parsing is a plain syntactic parse of http(s) URLs
(none of the parser corner cases are exercised by the inputs used). -/
def parseHttp (s : String) : Option Url :=
  let rest :=
    if jsStarts s "http://" then some ("http", s.toList.drop 7)
    else if jsStarts s "https://" then some ("https", s.toList.drop 8)
    else none
  match rest with
  | none => none
  | some (scheme, r) =>
    let hostport := r.takeWhile (fun c => c ≠ '/' && c ≠ '?' && c ≠ '#')
    if hostport = [] then none
    else
      let after := r.drop hostport.length
      let host := hostport.takeWhile (fun c => c ≠ ':')
      let port := (hostport.dropWhile (fun c => c ≠ ':')).drop 1
      let path0 := after.takeWhile (fun c => c ≠ '?' && c ≠ '#')
      let search := (after.drop path0.length).takeWhile (fun c => c ≠ '#')
      let hs := after.drop (path0.length + search.length)
      some { scheme := scheme, hostname := ⟨host⟩, port := ⟨port⟩,
             pathname := if path0 = [] then "/" else ⟨path0⟩,
             search := ⟨search⟩, hash := ⟨hs⟩ }

def envC7 : LinkEnv :=
  { parse := parseHttp,
    resolveRel := fun _ _ => none,
    fileExists := fun p => p = "offline/cdn.example.com/lib/index.html",
    relPath := fun _ => "../cdn.example.com/lib/index.html" }

/-- The href= literal of the link-rewriting regexes. -/
def hrefLit : List Char := "href=".toList

/-- Well-behavedness of a replace callback for the idempotence proofs: on
every well-shaped match the callback either keeps the match unchanged, or
produces the same attribute with a new quote-free nonempty value on which
a second application keeps the result unchanged. -/
def CbGood (lit : List Char) (cb : String → String → String) : Prop :=
  ∀ litc g (q1 q2 : Char), ciEqList litc lit = true → isQ q1 = true →
    isQ q2 = true → g ≠ [] → (∀ c ∈ g, isQ c = false) →
    cb ⟨litc ++ q1 :: (g ++ [q2])⟩ ⟨g⟩ = ⟨litc ++ q1 :: (g ++ [q2])⟩ ∨
    ∃ rp : List Char,
      (cb ⟨litc ++ q1 :: (g ++ [q2])⟩ ⟨g⟩).toList = litc ++ q1 :: (rp ++ [q2]) ∧
      rp ≠ [] ∧ (∀ c ∈ rp, isQ c = false) ∧
      cb ⟨litc ++ q1 :: (rp ++ [q2])⟩ ⟨rp⟩ = ⟨litc ++ q1 :: (rp ++ [q2])⟩

/-- The properties of path.relative(pageDir, targetFile) outputs that the
link-repair idempotence rests on: the relative path is nonempty, contains
no quote characters, and is not an absolute URL or an absolute path. -/
def GoodRel (relp : String → String) : Prop :=
  ∀ t, relp t ≠ "" ∧ (∀ c ∈ (relp t).toList, isQ c = false) ∧
    jsStarts (relp t) "http://" = false ∧
    jsStarts (relp t) "https://" = false ∧
    jsStarts (relp t) "/" = false

/-- Concrete link environment for the C5 witness: mirror with one page. -/
def envFix : LinkEnv :=
  { parse := parseHttp,
    resolveRel := fun _ _ => none,
    fileExists := fun p => p = "offline/about/index.html",
    relPath := fun _ => "../about/index.html" }

/-- Parsed form of new URL("about/", "https://www.fruitpunch.ai/") for the
C7 witness. -/
def uAbout : Url :=
  { scheme := "https", hostname := "www.fruitpunch.ai", port := "",
    pathname := "/about/", search := "", hash := "" }

/-- Concrete link environment with a relative-href resolution, for the C7
witness. -/
def envRel : LinkEnv :=
  { parse := parseHttp,
    resolveRel := fun h p =>
      if h = "about/" ∧ p = "https://www.fruitpunch.ai/" then some uAbout
      else none,
    fileExists := fun p => p = "offline/about/index.html",
    relPath := fun _ => "about/index.html" }

/-- Computable statement that no entry of a srcset attribute value has a
local mapping (or every mapped candidate is a data:/blob: URL the pass
skips). -/
def srcsetUnmapped (m : List (String × String)) (g : String) : Bool :=
  (splitOnChar ',' g.toList).all (fun part =>
    match splitWsTrimmed (trimL part) with
    | [] => true
    | url :: _ => (truthyGet m ⟨url⟩).isNone || jsStarts ⟨url⟩ "data:" ||
        jsStarts ⟨url⟩ "blob:")

/-- Concrete asset map for the C3 witness. -/
def mC3 : List (String × String) := [("x.png", "_assets/x.png")]

/-! ## CssAssetExtractor rewrite (src/scrape.mjs lines 493-518)

The CSS reference rewrite is updatedCss.replace(/url\\(["\x27]?([^"\x27)]+)
["\x27]?\\)/gi, cb).  The pattern is deterministic under backtracking: the
leading quote is taken when present (retrying without it puts the quote at
the head of the one-or-more group, which excludes quotes, so the retry
always fails), the group is the maximal run free of quotes and closing
parentheses (giving back characters leaves a group-eligible character
where a quote or parenthesis is required, so shorter runs always fail),
and the match closes on a parenthesis either immediately after the run or
immediately after one quote. -/

/-- The characters excluded from the url() capture group. -/
def isStop (c : Char) : Bool := c = '"' || c = '\'' || c = ')'

/-- The url( literal of the CSS reference pattern. -/
def urlLit : List Char := "url(".toList

/-- Group-and-closer parse shared by the with-quote and without-quote
alternatives: pre is the already matched text. -/
def cssTail (pre : List Char) (u : List Char) :
    Option (List Char × List Char × List Char) :=
  if u.takeWhile (fun c => !(isStop c)) = [] then none
  else
    match u.dropWhile (fun c => !(isStop c)) with
    | [] => none
    | e :: rest =>
      if e = ')' then
        some (pre ++ u.takeWhile (fun c => !(isStop c)) ++ [e],
              u.takeWhile (fun c => !(isStop c)), rest)
      else
        match rest with
        | ')' :: rest2 =>
          some (pre ++ u.takeWhile (fun c => !(isStop c)) ++ [e, ')'],
                u.takeWhile (fun c => !(isStop c)), rest2)
        | _ => none

/-- One match attempt of the url() pattern at the head of cs: returns
(whole matched text, captured group, remainder after the match). -/
def tryCss (cs : List Char) : Option (List Char × List Char × List Char) :=
  match ciPrefix urlLit cs with
  | none => none
  | some (litc, cs1) =>
    match cs1 with
    | [] => none
    | d :: ds => if isQ d then cssTail (litc ++ [d]) ds else cssTail litc cs1

/-- Fuel-indexed scanner loop for the CSS pattern. -/
def cssReplaceFuel (cb : String → String → String) :
    Nat → List Char → List Char
  | 0, _ => []
  | _ + 1, [] => []
  | fuel + 1, c :: t =>
    match tryCss (c :: t) with
    | some (w, g, r) => (cb ⟨w⟩ ⟨g⟩).toList ++ cssReplaceFuel cb fuel r
    | none => c :: cssReplaceFuel cb fuel t

/-- One String.replace pass for the CSS url() pattern. -/
def cssReplace (cb : String → String → String) (cs : List Char) : List Char :=
  cssReplaceFuel cb cs.length cs

/-- The JS truthy-chained lookup assetMap.get(t) || assetMap.get(new
URL(t, cssUrl).href); resolve stands for the URL-library resolution
against the stylesheet URL. -/
def cssLookup (m : List (String × String)) (resolve : String → String)
    (t : String) : Option String :=
  match truthyGet m t with
  | some lp => some lp
  | none => truthyGet m (resolve t)

/-- Embedding of the url() replace callback (src/scrape.mjs lines
498-511): trim the captured URL, keep data: and fragment references,
look the trimmed URL up directly and then resolved, and on a hit emit
url("relativePath") — relp stands for path.relative(cssDir,
path.join(OUT, localAssetPath)) with backslashes normalized, for the
fixed stylesheet being processed. -/
def cssCb (m : List (String × String)) (resolve : String → String)
    (relp : String → String) (whole g : String) : String :=
  let t : String := ⟨trimL g.toList⟩
  if jsStarts t "data:" || jsStarts t "#" then whole
  else
    match cssLookup m resolve t with
    | some lp => ⟨urlLit ++ '"' :: ((relp lp).toList ++ ['"', ')'])⟩
    | none => whole

/-- Whole-stylesheet url() rewriting of src/scrape.mjs line 498. -/
def cssRewrite (m : List (String × String)) (resolve : String → String)
    (relp : String → String) (css : String) : String :=
  ⟨cssReplace (cssCb m resolve relp) css.toList⟩

/-- Well-behavedness of a CSS replace callback: on every well-shaped
match it either keeps the match or emits url("rp") with rp a nonempty
group-safe path that a second application keeps. -/
def CbGoodCss (cb : String → String → String) : Prop :=
  ∀ litc g q1 q2 : List Char, ciEqList litc urlLit = true →
    (q1 = [] ∨ ∃ a, q1 = [a] ∧ isQ a = true) →
    (q2 = [] ∨ ∃ a, q2 = [a] ∧ isQ a = true) →
    g ≠ [] → (∀ c ∈ g, isStop c = false) →
    cb ⟨litc ++ q1 ++ (g ++ q2 ++ [')'])⟩ ⟨g⟩ =
      ⟨litc ++ q1 ++ (g ++ q2 ++ [')'])⟩ ∨
    ∃ rp : List Char,
      (cb ⟨litc ++ q1 ++ (g ++ q2 ++ [')'])⟩ ⟨g⟩).toList =
        urlLit ++ '"' :: (rp ++ ['"', ')']) ∧ rp ≠ [] ∧
      (∀ c ∈ rp, isStop c = false) ∧
      cb ⟨urlLit ++ '"' :: (rp ++ ['"', ')'])⟩ ⟨rp⟩ =
        ⟨urlLit ++ '"' :: (rp ++ ['"', ')'])⟩

/-- The region following a failed match attempt stays failed: its first
stop character, if any, is a quote not immediately followed by the
closing parenthesis. -/
def Doomed (u : List Char) : Prop :=
  (∀ c ∈ u, isStop c = false) ∨
  ∃ B e x, u = B ++ e :: x ∧ (∀ c ∈ B, isStop c = false) ∧ isQ e = true ∧
    (x = [] ∨ ∃ f y, x = f :: y ∧ f ≠ ')')

/-- The facts about the asset map, URL resolution and path.relative
outputs that CSS rewrite idempotence rests on: relative paths are
nonempty, free of quotes and closing parentheses, trim-stable, and not
themselves keys of the resolved map, directly or after resolution. -/
def GoodCssEnv (m : List (String × String)) (resolve : String → String)
    (relp : String → String) : Prop :=
  ∀ lp, relp lp ≠ "" ∧ (∀ c ∈ (relp lp).toList, isStop c = false) ∧
    trimL (relp lp).toList = (relp lp).toList ∧
    cssLookup m resolve (relp lp) = none

/-- Concrete resolved asset map for the C4 counterexample: the site CSS
references https://s/a.png, stored at _assets/a.png; a second asset named
a.png (relative, as it appeared in another stylesheet) is stored at
_assets/b.png. -/
def mC4 : List (String × String) :=
  [("https://s/a.png", "_assets/a.png"), ("a.png", "_assets/b.png")]

/-- URL resolution against the stylesheet URL https://s/main.css. -/
def resolveC4 : String → String := fun t => "https://s/" ++ t

/-- path.relative from the stylesheet directory offline/_assets for the
two stored asset paths. -/
def relpC4 : String → String :=
  fun lp => if lp = "_assets/a.png" then "a.png" else "b.png"

/-- Concrete environment satisfying GoodCssEnv, for the C4 witness. -/
def mC4w : List (String × String) := [("https://s/a.png", "_assets/a.png")]

/-- URL resolution against the stylesheet URL for the C4 witness. -/
def resolveC4w : String → String := fun t => "https://s/" ++ t

/-- path.relative output for the C4 witness mirror layout. -/
def relpC4w : String → String := fun _ => "img/a.png"

/-! ## IncompletePageDetector (src/rescrape-blank.mjs lines 52-94)

findBlankPages flags a stored index.html whose content has fewer than 50
lines, or no substantial body content (the first match of the regex
/<body[^>]*>([\\s\\S]*?)<\\/body>/i missing, with an empty group, or with a
trimmed group of at most 200 characters), or a known access-denied /
verification-pending marker.  The regex is embedded as the engine scan:
at each position try a case-insensitive <body, then the maximal run free
of the closing angle bracket followed by one, then the lazy group up to
the first case-insensitive closing tag; on failure advance one
position. -/

/-- Lazy group scan: the characters before the first case-insensitive
occurrence of the body closing tag, none when there is none. -/
def closeScan : List Char → Option (List Char)
  | [] => none
  | c :: t =>
    match ciPrefix ("</body>".toList) (c :: t) with
    | some _ => some []
    | none =>
      match closeScan t with
      | some g => some (c :: g)
      | none => none

/-- First match of the body-region regex: the captured group. -/
def bodyGroup : List Char → Option (List Char)
  | [] => none
  | c :: t =>
    match ciPrefix ("<body".toList) (c :: t) with
    | some (_, rest1) =>
      match rest1.dropWhile (fun x => x ≠ '>') with
      | '>' :: rest2 =>
        match closeScan rest2 with
        | some g => some g
        | none => bodyGroup t
      | _ => bodyGroup t
    | none => bodyGroup t

/-- bodyMatch && bodyMatch[1] && bodyMatch[1].trim().length > 200 of
src/rescrape-blank.mjs line 75. -/
def hasBodyContent (cs : List Char) : Bool :=
  match bodyGroup cs with
  | some g => decide (g ≠ []) && decide ((trimL g).length > 200)
  | none => false

/-- The three access-denied / verification-pending markers
(src/rescrape-blank.mjs lines 76-78). -/
def hasCfError (cs : List Char) : Bool :=
  listContains cs ("The content of the page cannot be displayed".toList) ||
  listContains cs ("Just a moment".toList) ||
  listContains cs ("Checking your browser".toList)

/-- The flag condition of findBlankPages (src/rescrape-blank.mjs line 80):
lineCount < 50 || !hasBodyContent || hasCloudflareError, with lineCount =
content.split("\n").length. -/
def isBlankPage (content : String) : Bool :=
  decide ((splitOnChar '\n' content.toList).length < 50) ||
  !(hasBodyContent content.toList) || hasCfError content.toList

/-- One-line document whose body text exceeds 200 characters, for the C9
counterexample. -/
def docC9 : String := "<body>" ++ ⟨List.replicate 250 'a'⟩ ++ "</body>"

/-- The same body content behind 50 newlines: at least 50 lines. -/
def docC9b : String :=
  ⟨List.replicate 50 '\n'⟩ ++ "<body>" ++ ⟨List.replicate 250 'a'⟩ ++
    "</body>"

/-! # Theorems -/

/-! ## List helper lemmas -/

theorem all_ne_of_not_mem (c : Char) (l : List Char) (h : c ∉ l) :
    ∀ a ∈ l, (fun x => decide (x ≠ c)) a := by
  intro a ha
  simp only [decide_eq_true_eq]
  rintro rfl
  exact h ha

theorem takeWhile_append_all {α : Type} (p : α → Bool) (l₁ l₂ : List α)
    (h : ∀ a ∈ l₁, p a) :
    (l₁ ++ l₂).takeWhile p = l₁ ++ l₂.takeWhile p := by
  induction l₁ with
  | nil => simp
  | cons a l ih =>
    have ha : p a := h a (by simp)
    simp only [List.cons_append, List.takeWhile_cons, ha, ite_true]
    rw [ih (fun b hb => h b (by simp [hb]))]

theorem takeWhile_all {α : Type} (p : α → Bool) (l : List α)
    (h : ∀ a ∈ l, p a) : l.takeWhile p = l := by
  have := takeWhile_append_all p l [] h
  simpa using this

theorem takeWhile_append_stop {α : Type} (p : α → Bool) (l₁ l₂ : List α) (c : α)
    (h : ∀ a ∈ l₁, p a) (hc : ¬ p c) :
    (l₁ ++ c :: l₂).takeWhile p = l₁ := by
  rw [takeWhile_append_all p l₁ (c :: l₂) h]
  simp [List.takeWhile_cons, hc]

theorem dropWhile_append_all {α : Type} (p : α → Bool) (l₁ l₂ : List α)
    (h : ∀ a ∈ l₁, p a) :
    (l₁ ++ l₂).dropWhile p = l₂.dropWhile p := by
  induction l₁ with
  | nil => simp
  | cons a l ih =>
    have ha : p a := h a (by simp)
    simp only [List.cons_append, List.dropWhile_cons, ha, ite_true]
    exact ih (fun b hb => h b (by simp [hb]))

theorem head?_dropWhile_ne {α : Type} (p : α → Bool) (l : List α) :
    ∀ c, (l.dropWhile p).head? = some c → ¬ p c := by
  induction l with
  | nil => intro c h; simp at h
  | cons a l ih =>
    intro c h
    by_cases ha : p a
    · rw [List.dropWhile_cons_of_pos ha] at h
      exact ih c h
    · rw [List.dropWhile_cons_of_neg ha] at h
      simp at h
      rwa [← h]

theorem mem_of_mem_takeWhile {α : Type} {p : α → Bool} {l : List α} {a : α}
    (h : a ∈ l.takeWhile p) : a ∈ l := by
  induction l with
  | nil => simp at h
  | cons b t ih =>
    rw [List.takeWhile_cons] at h
    by_cases hb : p b
    · rw [if_pos hb] at h
      rcases List.mem_cons.mp h with h | h
      · simp [h]
      · simp [ih h]
    · rw [if_neg hb] at h
      simp at h

theorem toList_append (a b : String) : (a ++ b).toList = a.toList ++ b.toList := by
  simp [String.toList, String.data_append]

theorem listContains_of_infix {l pat : List Char}
    (h : ∃ a b, l = a ++ pat ++ b) : listContains l pat = true := by
  obtain ⟨a, b, rfl⟩ := h
  induction a with
  | nil =>
    unfold listContains
    have hpre : pat.isPrefixOf (([] : List Char) ++ pat ++ b) = true := by
      rw [List.isPrefixOf_iff_prefix]
      exact ⟨b, by simp⟩
    rw [if_pos hpre]
  | cons c t ih =>
    unfold listContains
    by_cases hp : pat.isPrefixOf (c :: t ++ pat ++ b) = true
    · rw [if_pos hp]
    · rw [if_neg hp]
      exact ih

/-! ## Claim C8: PathMapper rules of safeFileName -/

/-- Claim C8: safeFileName is deterministic, drops query and fragment, sends
the root path and the empty path to the fixed name "index", strips a single
trailing slash and all leading slashes; in particular
safeFileName "/a/b/" = safeFileName "/a/b". -/
theorem safeFileName_C8 :
    (safeFileName "/" = "index" ∧ safeFileName "" = "index") ∧
    (safeFileName "/a/b/" = safeFileName "/a/b") ∧
    (∀ p q : String, '?' ∉ p.toList → '#' ∉ p.toList →
      safeFileName (p ++ "?" ++ q) = safeFileName p) ∧
    (∀ p f : String, '?' ∉ p.toList → '#' ∉ p.toList →
      safeFileName (p ++ "#" ++ f) = safeFileName p) ∧
    (∀ p : String, '?' ∉ p.toList → '#' ∉ p.toList →
      p.toList.getLast? ≠ some '/' →
      safeFileName (p ++ "/") = safeFileName p) ∧
    (∀ p : String, (safeFileName p).toList.head? ≠ some '/') := by
  refine ⟨⟨by decide, by decide⟩, by decide, ?_, ?_, ?_, ?_⟩
  · intro p q hq hh
    unfold safeFileName
    congr 1
    rw [toList_append, toList_append]
    show ((((p.toList ++ ['?']) ++ q.toList).takeWhile _).takeWhile _) = _
    rw [List.append_assoc, List.singleton_append,
      takeWhile_append_stop _ _ _ _ (all_ne_of_not_mem '?' p.toList hq) (by simp),
      takeWhile_all _ p.toList (all_ne_of_not_mem '#' p.toList hh),
      takeWhile_all _ p.toList (all_ne_of_not_mem '?' p.toList hq),
      takeWhile_all _ p.toList (all_ne_of_not_mem '#' p.toList hh)]
  · intro p f hq hh
    unfold safeFileName
    congr 1
    rw [toList_append, toList_append]
    show ((((p.toList ++ ['#']) ++ f.toList).takeWhile _).takeWhile _) = _
    rw [List.append_assoc, List.singleton_append,
      takeWhile_append_all _ p.toList ('#' :: f.toList)
        (all_ne_of_not_mem '?' p.toList hq),
      List.takeWhile_cons_of_pos (by simp),
      takeWhile_append_stop _ _ _ _ (all_ne_of_not_mem '#' p.toList hh) (by simp),
      takeWhile_all _ p.toList (all_ne_of_not_mem '?' p.toList hq),
      takeWhile_all _ p.toList (all_ne_of_not_mem '#' p.toList hh)]
  · intro p hq hh hsl
    unfold safeFileName
    rw [toList_append]
    have hq' : ∀ a ∈ p.toList ++ ['/'], (fun x => decide (x ≠ '?')) a := by
      intro a ha
      rcases List.mem_append.mp ha with h | h
      · exact all_ne_of_not_mem '?' p.toList hq a h
      · simp at h; simp [h]
    have hh' : ∀ a ∈ p.toList ++ ['/'], (fun x => decide (x ≠ '#')) a := by
      intro a ha
      rcases List.mem_append.mp ha with h | h
      · exact all_ne_of_not_mem '#' p.toList hh a h
      · simp at h; simp [h]
    rw [show ("/" : String).toList = ['/'] from rfl,
      takeWhile_all _ _ hq', takeWhile_all _ _ hh',
      takeWhile_all _ p.toList (all_ne_of_not_mem '?' p.toList hq),
      takeWhile_all _ p.toList (all_ne_of_not_mem '#' p.toList hh)]
    show safeFileTail (p.toList ++ ['/']) = safeFileTail p.toList
    unfold safeFileTail
    rw [List.getLast?_concat, if_pos rfl, List.dropLast_concat, if_neg hsl]
  · intro p
    unfold safeFileName safeFileTail
    set p1 := if (((p.toList.takeWhile (· ≠ '?')).takeWhile (· ≠ '#')).getLast? =
        some '/') then ((p.toList.takeWhile (· ≠ '?')).takeWhile (· ≠ '#')).dropLast
        else (p.toList.takeWhile (· ≠ '?')).takeWhile (· ≠ '#') with hp1
    by_cases h : p1 = []
    · rw [if_pos h]; decide
    · rw [if_neg h]
      intro hcontr
      have := head?_dropWhile_ne (· = '/') p1 _ hcontr
      simp at this

/-- Witness for safeFileName_C8: the hypothesis-bearing conjuncts applied at
concrete inputs. -/
theorem safeFileName_C8_witness :
    safeFileName "/pricing?plan=pro" = safeFileName "/pricing" ∧
    safeFileName "/about#team" = safeFileName "/about" ∧
    safeFileName "/a/b" ++ "/" = "a/b/" :=
  ⟨safeFileName_C8.2.2.1 "/pricing" "plan=pro" (by decide) (by decide),
   safeFileName_C8.2.2.2.1 "/about" "team" (by decide) (by decide),
   by decide⟩

/-! ## Map lemmas -/

theorem mapGet_mapSet_fresh (m : List (String × String)) (k v : String)
    (h : mapGet m k = none) : mapGet (mapSet m k v) k = some v := by
  unfold mapGet mapSet at *
  rw [List.find?_append]
  cases hf : m.find? (fun e => e.1 == k) with
  | none => simp [List.find?]
  | some e => rw [hf] at h; simp at h

/-! ## Claim C1: at-most-one fetch per absolute URL, shared LocalPath -/

/-- Claim C1: when an asset URL is referenced twice (under any raw
spellings and page URLs that resolve to the same absolute URL, the
situation of two pages or a page and a stylesheet referencing one asset),
and the first call succeeded, downloadAsset performs exactly one network
fetch: the first call fetched the absolute URL once, and the second call
returns the previously computed local path immediately, with no fetch and
no state change, so both callers observe the same LocalPath. -/
theorem downloadAsset_memo_C1 (env : NetEnv) (st : List (String × String))
    (url1 pageUrl1 url2 pageUrl2 p : String) (u : Url)
    (h1 : (jsStarts url1 "data:" || jsStarts url1 "blob:") = false)
    (h2 : (jsStarts url2 "data:" || jsStarts url2 "blob:") = false)
    (hr1 : env.resolve url1 pageUrl1 = some u)
    (hr2 : env.resolve url2 pageUrl2 = some u)
    (hfresh : mapGet st u.href = none)
    (hok : (downloadAsset env st url1 pageUrl1).result = some p) :
    (downloadAsset env st url1 pageUrl1).fetches = [u.href] ∧
    downloadAsset env (downloadAsset env st url1 pageUrl1).state url2 pageUrl2 =
      ⟨some p, (downloadAsset env st url1 pageUrl1).state, []⟩ := by
  by_cases hel : (!(normalizeOrigin u == normalizeOrigin BASE) &&
      !(isCommonCDN u.hostname)) = true
  · exfalso
    have : downloadAsset env st url1 pageUrl1 = ⟨none, st, []⟩ := by
      simp only [downloadAsset, h1, Bool.false_eq_true, if_false, hr1, hfresh, hel,
        if_true]
    rw [this] at hok
    simp at hok
  · have hel' := eq_false_of_ne_true hel
    cases hf : env.fetch u.href with
    | err =>
      exfalso
      have : downloadAsset env st url1 pageUrl1 = ⟨none, st, [u.href]⟩ := by
        simp only [downloadAsset, h1, Bool.false_eq_true, if_false, hr1, hfresh,
          hel', hf]
      rw [this] at hok
      simp at hok
    | notOk =>
      exfalso
      have : downloadAsset env st url1 pageUrl1 = ⟨none, st, [u.href]⟩ := by
        simp only [downloadAsset, h1, Bool.false_eq_true, if_false, hr1, hfresh,
          hel', hf]
      rw [this] at hok
      simp at hok
    | ok ct =>
      have e1 : downloadAsset env st url1 pageUrl1 =
          ⟨some ("_assets/" ++ (getAssetPath u.pathname ++
              (if extname u.pathname = "" then extFromContentType ct
               else extname u.pathname))),
           mapSet st u.href ("_assets/" ++ (getAssetPath u.pathname ++
              (if extname u.pathname = "" then extFromContentType ct
               else extname u.pathname))),
           [u.href]⟩ := by
        simp only [downloadAsset, h1, Bool.false_eq_true, if_false, hr1, hfresh,
          hel', hf]
      have hp : p = "_assets/" ++ (getAssetPath u.pathname ++
          (if extname u.pathname = "" then extFromContentType ct
           else extname u.pathname)) := by
        rw [e1] at hok
        simpa using hok.symm
      constructor
      · rw [e1]
      · rw [e1]
        simp only
        have hget : mapGet (mapSet st u.href p) u.href = some p :=
          mapGet_mapSet_fresh st u.href p hfresh
        rw [hp]
        simp only [downloadAsset, h2, Bool.false_eq_true, if_false, hr2]
        rw [hp] at hget
        rw [hget]

/-- Witness for downloadAsset_memo_C1 at a concrete environment: the same
stylesheet referenced from two different pages, once by raw absolute URL
and once by a root-relative path; one fetch happens, both calls return the
same local path. -/
theorem downloadAsset_memo_C1_witness :
    (downloadAsset envOk [] "https://www.fruitpunch.ai/css/site.css"
      "https://www.fruitpunch.ai/").fetches =
        ["https://www.fruitpunch.ai/css/site.css"] ∧
    downloadAsset envOk
      (downloadAsset envOk [] "https://www.fruitpunch.ai/css/site.css"
        "https://www.fruitpunch.ai/").state
      "/css/site.css" "https://www.fruitpunch.ai/about/" =
      ⟨some "_assets/asset__css_site_css.css",
       (downloadAsset envOk [] "https://www.fruitpunch.ai/css/site.css"
         "https://www.fruitpunch.ai/").state, []⟩ := by
  have h := downloadAsset_memo_C1 envOk []
    "https://www.fruitpunch.ai/css/site.css" "https://www.fruitpunch.ai/"
    "/css/site.css" "https://www.fruitpunch.ai/about/"
    "_assets/asset__css_site_css.css" cssUrlA
    (by decide) (by decide) (by decide) (by decide) (by decide) (by decide)
  exact h

/-! ## Claim C6: behaviour on fetch failure -/

/-- Counterexample to claim C6: with a network that answers a non-success
status, a first downloadAsset call for a URL returns null and records
nothing, and a second call for the same absolute URL in the same run
performs a new network fetch (its fetch list is nonempty), contradicting
the claim that the URL is not retried within the run. -/
theorem downloadAsset_C6_counterexample :
    (downloadAsset envNotOk [] "/css/site.css"
      "https://www.fruitpunch.ai/").result = none ∧
    (downloadAsset envNotOk [] "/css/site.css"
      "https://www.fruitpunch.ai/").state = [] ∧
    (downloadAsset envNotOk [] "/css/site.css"
      "https://www.fruitpunch.ai/").fetches =
        ["https://www.fruitpunch.ai/css/site.css"] ∧
    (downloadAsset envNotOk
      (downloadAsset envNotOk [] "/css/site.css"
        "https://www.fruitpunch.ai/").state
      "/css/site.css" "https://www.fruitpunch.ai/").fetches =
        ["https://www.fruitpunch.ai/css/site.css"] := by
  refine ⟨rfl, rfl, rfl, rfl⟩

/-- Claim C6 as amended: on a thrown network error or a non-success status
downloadAsset returns null as a value (the failure is contained inside the
call, so it cannot fail the page), but the absolute URL is NOT recorded in
the memo map, so a later reference to the same absolute URL in the same
run performs a new network fetch. -/
theorem downloadAsset_C6_amended (env : NetEnv) (st : List (String × String))
    (url pageUrl : String) (u : Url)
    (h : (jsStarts url "data:" || jsStarts url "blob:") = false)
    (hr : env.resolve url pageUrl = some u)
    (hm : mapGet st u.href = none)
    (hel : (!(normalizeOrigin u == normalizeOrigin BASE) &&
      !(isCommonCDN u.hostname)) = false)
    (hf : env.fetch u.href = .err ∨ env.fetch u.href = .notOk) :
    downloadAsset env st url pageUrl = ⟨none, st, [u.href]⟩ ∧
    (downloadAsset env (downloadAsset env st url pageUrl).state url
      pageUrl).fetches = [u.href] := by
  have e1 : downloadAsset env st url pageUrl = ⟨none, st, [u.href]⟩ := by
    rcases hf with hf | hf <;>
      simp only [downloadAsset, h, Bool.false_eq_true, if_false, hr, hm, hel, hf]
  refine ⟨e1, ?_⟩
  rw [e1]
  simp only
  rcases hf with hf | hf <;>
    simp only [downloadAsset, h, Bool.false_eq_true, if_false, hr, hm, hel, hf]

/-- Witness for downloadAsset_C6_amended at the concrete failing
environment. -/
theorem downloadAsset_C6_amended_witness :
    downloadAsset envNotOk [] "/css/site.css" "https://www.fruitpunch.ai/" =
      ⟨none, [], ["https://www.fruitpunch.ai/css/site.css"]⟩ :=
  (downloadAsset_C6_amended envNotOk [] "/css/site.css"
    "https://www.fruitpunch.ai/" cssUrlA (by decide) (by decide) (by decide)
    (by decide) (Or.inr (by decide))).1

/-! ## Claim C10: CDN allow-list matches by hostname substring -/

/-- Claim C10: the third-party eligibility check matches allow-listed CDN
hosts by substring containment in the hostname, not by exact host
equality: every hostname containing an allow-listed name (here unpkg.com)
is accepted by isCommonCDN, and downloadAsset on a URL with hostname
unpkg.com.evil.example proceeds to fetch it and stores a local copy. -/
theorem downloadAsset_C10 :
    (∀ host : String,
      (∃ a b, host.toList = a ++ ("unpkg.com".toList) ++ b) →
      isCommonCDN host = true) ∧
    (downloadAsset envEvil [] "https://unpkg.com.evil.example/lib.js"
      "https://www.fruitpunch.ai/").fetches =
        ["https://unpkg.com.evil.example/lib.js"] ∧
    (downloadAsset envEvil [] "https://unpkg.com.evil.example/lib.js"
      "https://www.fruitpunch.ai/").result ≠ none := by
  refine ⟨?_, rfl, by decide⟩
  intro host hsub
  have : jsIncludes host "unpkg.com" = true := by
    unfold jsIncludes
    exact listContains_of_infix hsub
  unfold isCommonCDN
  rw [this]
  simp

/-- Witness for downloadAsset_C10: the substring conjunct applied at the
concrete crafted hostname. -/
theorem downloadAsset_C10_witness :
    isCommonCDN "unpkg.com.evil.example" = true :=
  downloadAsset_C10.1 "unpkg.com.evil.example"
    ⟨[], ".evil.example".toList, by decide⟩

/-! ## Claim C2: MirrorReport merge -/

/-- Counterexample to claim C2: in a run where a previously failed URL now
succeeds AND a different URL newly fails, the merge takes the
append-new-failures branch and does not prune the succeeded URL, so the
previously failed URL stays in the merged failure list even though it
succeeded in this run. -/
theorem mergeReport_C2_counterexample :
    "https://www.fruitpunch.ai/a/" ∈ successUrlsOf resultsC2 ∧
    (⟨"https://www.fruitpunch.ai/a/", "timeout"⟩ : FailEntry) ∈
      (mergeReport (some exReportC2) 2 resultsC2 3).failed := by
  refine ⟨by decide, by decide⟩

/-- Claim C2 as amended: the pruning and appending behaviours are mutually
exclusive branches.  When the run has at least one failure that is not
already recorded, the merge appends exactly those new failures (never
duplicating an already recorded URL) and does not prune; only when every
failure of the run is already recorded and at least one URL succeeded does
the merge prune this run's succeeded URLs from the persisted failure list,
keeping every other entry. -/
theorem mergeReport_C2_amended (ex : Report) (urlCount : Nat)
    (results : List RunResult) (assetCount : Nat) :
    (newFailedOf ex results ≠ [] →
      (mergeReport (some ex) urlCount results assetCount).failed =
        ex.failed ++ newFailedOf ex results ∧
      ∀ f ∈ newFailedOf ex results, f.url ∉ ex.failed.map (fun e => e.url)) ∧
    (newFailedOf ex results = [] → successUrlsOf results ≠ [] →
      ((mergeReport (some ex) urlCount results assetCount).failed =
        ex.failed.filter (fun f => !((successUrlsOf results).contains f.url)) ∧
      (∀ f ∈ (mergeReport (some ex) urlCount results assetCount).failed,
        f.url ∉ successUrlsOf results) ∧
      (∀ f ∈ ex.failed, f.url ∉ successUrlsOf results →
        f ∈ (mergeReport (some ex) urlCount results assetCount).failed))) := by
  constructor
  · intro hne
    have hpos : 0 < (newFailedOf ex results).length := List.length_pos.mpr hne
    have e1 : (mergeReport (some ex) urlCount results assetCount).failed =
        ex.failed ++ newFailedOf ex results := by
      simp only [mergeReport, if_pos hpos]
    refine ⟨e1, ?_⟩
    intro f hf
    unfold newFailedOf at hf
    have hc := List.of_mem_filter hf
    rw [Bool.not_eq_true'] at hc
    intro hmem
    have h2 : (List.map (fun e => e.url) ex.failed).contains f.url = true :=
      List.elem_iff.mpr hmem
    rw [hc] at h2
    exact Bool.false_ne_true h2
  · intro hnil hsucc
    have hnpos : ¬ 0 < (newFailedOf ex results).length := by
      rw [hnil]; simp
    have hspos : 0 < (successUrlsOf results).length := List.length_pos.mpr hsucc
    have e1 : (mergeReport (some ex) urlCount results assetCount).failed =
        ex.failed.filter (fun f => !((successUrlsOf results).contains f.url)) := by
      simp only [mergeReport, if_neg hnpos, if_pos hspos]
    refine ⟨e1, ?_, ?_⟩
    · intro f hf
      rw [e1] at hf
      have hc := List.of_mem_filter hf
      rw [Bool.not_eq_true'] at hc
      intro hmem
      have h2 : (successUrlsOf results).contains f.url = true :=
        List.elem_iff.mpr hmem
      rw [hc] at h2
      exact Bool.false_ne_true h2
    · intro f hf hnm
      rw [e1]
      refine List.mem_filter.mpr ⟨hf, ?_⟩
      simpa using hnm

/-- Witness for mergeReport_C2_amended: both branches exercised at concrete
reports. -/
theorem mergeReport_C2_amended_witness :
    (mergeReport (some exReportC2) 2 resultsC2 3).failed =
      exReportC2.failed ++ newFailedOf exReportC2 resultsC2 ∧
    (mergeReport (some exReportC2) 2
      [⟨"https://www.fruitpunch.ai/a/", true, ""⟩] 3).failed =
      exReportC2.failed.filter
        (fun f => !((successUrlsOf
          [⟨"https://www.fruitpunch.ai/a/", true, ""⟩]).contains f.url)) :=
  ⟨((mergeReport_C2_amended exReportC2 2 resultsC2 3).1 (by decide)).1,
   ((mergeReport_C2_amended exReportC2 2
      [⟨"https://www.fruitpunch.ai/a/", true, ""⟩] 3).2 (by decide)
        (by decide)).1⟩

/-! ## Scanner lemmas -/

theorem ciPrefix_some_split (lit cs a r : List Char)
    (h : ciPrefix lit cs = some (a, r)) : cs = a ++ r ∧ ciEqList a lit = true := by
  induction lit generalizing cs a r with
  | nil =>
    unfold ciPrefix at h
    cases h
    exact ⟨rfl, rfl⟩
  | cons l ls ih =>
    cases cs with
    | nil => simp [ciPrefix] at h
    | cons c t =>
      unfold ciPrefix at h
      split at h
      next hc =>
        split at h
        next a0 r0 hp =>
          simp only [Option.some.injEq, Prod.mk.injEq] at h
          obtain ⟨ha, hr⟩ := h
          obtain ⟨he, hci⟩ := ih t a0 r0 hp
          subst ha hr
          refine ⟨by rw [he]; rfl, ?_⟩
          simp [ciEqList, hc, hci]
        next => cases h
      next => cases h

theorem ciPrefix_of_ciEq (lit a x : List Char) (h : ciEqList a lit = true) :
    ciPrefix lit (a ++ x) = some (a, x) := by
  induction lit generalizing a with
  | nil =>
    cases a with
    | nil => rfl
    | cons c t => simp [ciEqList] at h
  | cons l ls ih =>
    cases a with
    | nil => simp [ciEqList] at h
    | cons c t =>
      simp only [ciEqList, Bool.and_eq_true, decide_eq_true_eq] at h
      obtain ⟨hc, ht⟩ := h
      simp only [List.cons_append, ciPrefix, if_pos hc]
      simp only [List.append_eq]
      rw [ih t ht]

/-- Full inversion of a successful match attempt. -/
theorem tryAttr_some_inv (lit cs w g r : List Char)
    (h : tryAttr lit cs = some (w, g, r)) :
    ∃ litc q1 q2, w = litc ++ q1 :: (g ++ [q2]) ∧ cs = w ++ r ∧
      ciEqList litc lit = true ∧ isQ q1 = true ∧ isQ q2 = true ∧
      g ≠ [] ∧ (∀ c ∈ g, isQ c = false) := by
  unfold tryAttr at h
  split at h
  next => cases h
  next litc cs1 hp =>
    split at h
    next => cases h
    next q1 cs2 =>
      split at h
      next hq =>
        split at h
        next => cases h
        next hg =>
          split at h
          next => cases h
          next q2 rest hd =>
            simp only [Option.some.injEq, Prod.mk.injEq] at h
            obtain ⟨hw, hgg, hr⟩ := h
            subst hgg hr hw
            obtain ⟨hsplit, hci⟩ := ciPrefix_some_split lit cs litc (q1 :: cs2) hp
            have hq2 : isQ q2 = true := by
              have := head?_dropWhile_ne (fun c => !(isQ c)) cs2 q2
                (by rw [hd]; rfl)
              simpa using this
            have hcs2 : cs2 = cs2.takeWhile (fun c => !(isQ c)) ++ (q2 :: rest) := by
              conv_lhs => rw [← List.takeWhile_append_dropWhile
                (p := fun c => !(isQ c)) (l := cs2)]
              rw [hd]
            refine ⟨litc, q1, q2, rfl, ?_, hci, hq, hq2, hg, ?_⟩
            · rw [hsplit]
              conv_lhs => rw [hcs2]
              simp
            · intro c hc
              have := List.mem_takeWhile_imp hc
              simpa using this
      next => cases h

theorem tryAttr_rest_lt (lit cs w g r : List Char)
    (h : tryAttr lit cs = some (w, g, r)) : r.length < cs.length := by
  obtain ⟨litc, q1, q2, hw, hcs, -, -, -, -, -⟩ := tryAttr_some_inv lit cs w g r h
  rw [hcs, hw]
  simp
  omega

/-- Re-scanning a well-shaped match followed by anything finds exactly that
match again. -/
theorem tryAttr_prepend (lit litc g x : List Char) (q1 q2 : Char)
    (hci : ciEqList litc lit = true) (hq1 : isQ q1 = true) (hq2 : isQ q2 = true)
    (hg : g ≠ []) (hgq : ∀ c ∈ g, isQ c = false) :
    tryAttr lit ((litc ++ q1 :: (g ++ [q2])) ++ x) =
      some (litc ++ q1 :: (g ++ [q2]), g, x) := by
  unfold tryAttr
  have he : (litc ++ q1 :: (g ++ [q2])) ++ x = litc ++ (q1 :: (g ++ (q2 :: x))) := by
    simp
  rw [he, ciPrefix_of_ciEq lit litc _ hci]
  simp only [if_pos hq1]
  have htk : (g ++ (q2 :: x)).takeWhile (fun c => !(isQ c)) = g :=
    takeWhile_append_stop _ g x q2 (fun a ha => by simp [hgq a ha])
      (by simp [hq2])
  have hdr : (g ++ (q2 :: x)).dropWhile (fun c => !(isQ c)) = q2 :: x := by
    rw [dropWhile_append_all _ g (q2 :: x) (fun a ha => by simp [hgq a ha])]
    rw [List.dropWhile_cons_of_neg (by simp [hq2])]
  rw [htk, hdr]
  simp [hg]

/-- Fuel does not matter once it covers the input length. -/
theorem attrReplaceFuel_congr (lit : List Char) (cb : String → String → String) :
    ∀ n m cs, cs.length ≤ n → cs.length ≤ m →
      attrReplaceFuel lit cb n cs = attrReplaceFuel lit cb m cs := by
  intro n
  induction n with
  | zero =>
    intro m cs hn _
    have : cs = [] := List.length_eq_zero.mp (Nat.le_zero.mp hn)
    subst this
    cases m <;> rfl
  | succ n ih =>
    intro m cs hn hm
    cases cs with
    | nil => cases m <;> rfl
    | cons c t =>
      cases m with
      | zero => simp at hm
      | succ m' =>
        simp only [attrReplaceFuel]
        simp only [List.length_cons] at hn hm
        cases htry : tryAttr lit (c :: t) with
        | some res =>
          obtain ⟨w, g, r⟩ := res
          have hlt := tryAttr_rest_lt lit (c :: t) w g r htry
          simp only [List.length_cons] at hlt
          have h1 : r.length ≤ n := by omega
          have h2 : r.length ≤ m' := by omega
          simp only [ih m' r h1 h2]
        | none =>
          have h1 : t.length ≤ n := by omega
          have h2 : t.length ≤ m' := by omega
          simp only [ih m' t h1 h2]

theorem attrReplace_cons_some (lit : List Char) (cb : String → String → String)
    (c : Char) (t w g r : List Char) (htry : tryAttr lit (c :: t) = some (w, g, r)) :
    attrReplace lit cb (c :: t) = (cb ⟨w⟩ ⟨g⟩).toList ++ attrReplace lit cb r := by
  unfold attrReplace
  show attrReplaceFuel lit cb (t.length + 1) (c :: t) = _
  simp only [attrReplaceFuel, htry]
  have hlt := tryAttr_rest_lt lit (c :: t) w g r htry
  simp only [List.length_cons] at hlt
  rw [attrReplaceFuel_congr lit cb t.length r.length r (by omega) (by omega)]

theorem attrReplace_cons_none (lit : List Char) (cb : String → String → String)
    (c : Char) (t : List Char) (htry : tryAttr lit (c :: t) = none) :
    attrReplace lit cb (c :: t) = c :: attrReplace lit cb t := by
  unfold attrReplace
  show attrReplaceFuel lit cb (t.length + 1) (c :: t) = _
  simp only [attrReplaceFuel, htry]

/-! ## Stability of the href scanner under its own rewriting -/

theorem mk_toList (s : String) : (⟨s.toList⟩ : String) = s := by
  cases s
  rfl

theorem toList_mk (l : List Char) : (⟨l⟩ : String).toList = l := rfl

/-- A successful match contains at least two quote characters. -/
theorem tryAttr_two_quotes (lit cs w g r : List Char)
    (h : tryAttr lit cs = some (w, g, r)) : 2 ≤ cs.countP isQ := by
  obtain ⟨litc, q1, q2, hw, hcs, -, hq1, hq2, -, -⟩ := tryAttr_some_inv lit cs w g r h
  rw [hcs, hw]
  simp [List.countP_append, List.countP_cons, hq1, hq2]
  omega

/-- A list with at most one quote is left unchanged by the scanner. -/
theorem attrReplace_le_one_quote (lit : List Char) (cb : String → String → String) :
    ∀ n cs, cs.length ≤ n → cs.countP isQ ≤ 1 → attrReplace lit cb cs = cs := by
  intro n
  induction n with
  | zero =>
    intro cs hn _
    have : cs = [] := List.length_eq_zero.mp (Nat.le_zero.mp hn)
    subst this
    rfl
  | succ n ih =>
    intro cs hn hq
    cases cs with
    | nil => rfl
    | cons c t =>
      cases htry : tryAttr lit (c :: t) with
      | some res =>
        obtain ⟨w, g, r⟩ := res
        have := tryAttr_two_quotes lit (c :: t) w g r htry
        omega
      | none =>
        rw [attrReplace_cons_none lit cb c t htry]
        have hts : t.countP isQ ≤ 1 := by
          have : (c :: t).countP isQ = t.countP isQ + if isQ c then 1 else 0 := by
            simp [List.countP_cons]
          omega
        simp only [List.length_cons] at hn
        rw [ih t (by omega) hts]

/-- No quotes at all: unchanged. -/
theorem attrReplace_no_quote (lit : List Char) (cb : String → String → String)
    (cs : List Char) (h : ∀ c ∈ cs, isQ c = false) : attrReplace lit cb cs = cs := by
  refine attrReplace_le_one_quote lit cb cs.length cs le_rfl ?_
  have : cs.countP isQ = 0 := by
    rw [List.countP_eq_zero]
    intro a ha
    simp [h a ha]
  omega

/-- A match attempt with the href literal fails unless the head is h. -/
theorem tryAttr_href_none_head (c : Char) (t : List Char)
    (hc : ¬ c.toLower = 'h') : tryAttr hrefLit (c :: t) = none := by
  unfold tryAttr hrefLit
  have : ciPrefix ("href=".toList) (c :: t) = none := by
    show ciPrefix ('h' :: "ref=".toList) (c :: t) = none
    unfold ciPrefix
    rw [if_neg (by simpa using hc)]
  rw [this]

/-- Characters that cannot start a match commute with the scanner. -/
theorem attrReplace_href_inert (cb : String → String → String) (a x : List Char)
    (ha : ∀ c ∈ a, ¬ c.toLower = 'h') :
    attrReplace hrefLit cb (a ++ x) = a ++ attrReplace hrefLit cb x := by
  induction a with
  | nil => rfl
  | cons c t ih =>
    rw [List.cons_append,
      attrReplace_cons_none hrefLit cb c (t ++ x)
        (tryAttr_href_none_head c (t ++ x) (ha c (by simp))),
      ih (fun d hd => ha d (by simp [hd]))]
    rfl

/-- The scanner preserves the head character (callback outputs keep the
literal-and-quote prefix of the match they replace). -/
theorem attrReplace_href_head (cb : String → String → String)
    (hcb : CbGood hrefLit cb) (s : List Char) :
    (attrReplace hrefLit cb s).head? = s.head? := by
  cases s with
  | nil => rfl
  | cons c t =>
    cases htry : tryAttr hrefLit (c :: t) with
    | some res =>
      obtain ⟨w, g, r⟩ := res
      rw [attrReplace_cons_some hrefLit cb c t w g r htry]
      obtain ⟨litc, q1, q2, hw, hcs, hci, hq1, hq2, hg, hgq⟩ :=
        tryAttr_some_inv hrefLit (c :: t) w g r htry
      have hwne : w ≠ [] := by rw [hw]; cases litc <;> simp
      have hhead : w.head? = some c := by
        cases w with
        | nil => exact absurd rfl hwne
        | cons a as =>
          have h2 : (c : Char) :: t = a :: (as ++ r) := by simpa using hcs
          have : a = c := by
            have := congrArg List.head? h2
            simpa using this.symm
          simp [this]
      rcases hcb litc g q1 q2 hci hq1 hq2 hg hgq with hkeep | ⟨rp, hout, -, -, -⟩
      · rw [← hw] at hkeep
        rw [hkeep, toList_mk]
        cases w with
        | nil => exact absurd rfl hwne
        | cons a as =>
          simp at hhead
          simp [hhead]
      · rw [← hw] at hout
        rw [hout]
        rw [hw] at hhead
        cases litc with
        | nil => simpa using hhead
        | cons l0 ls => simpa using hhead
    | none =>
      rw [attrReplace_cons_none hrefLit cb c t htry]
      rfl

/-- A failing case-insensitive literal match keeps failing after the
scanner has rewritten the text, provided no literal character can start a
match. -/
theorem ciPrefix_none_stable (cb : String → String → String)
    (hcb : CbGood hrefLit cb) :
    ∀ lit' s, (∀ c ∈ lit', ¬ c.toLower = 'h') → ciPrefix lit' s = none →
      ciPrefix lit' (attrReplace hrefLit cb s) = none := by
  intro lit'
  induction lit' with
  | nil => intro s _ h; simp [ciPrefix] at h
  | cons l ls ih =>
    intro s hl h
    cases s with
    | nil => simpa [attrReplace, attrReplaceFuel] using h
    | cons a t =>
      by_cases hal : a.toLower = l.toLower
      · have hna : ¬ a.toLower = 'h' := by
          rw [hal]; exact hl l (by simp)
        rw [attrReplace_cons_none hrefLit cb a t (tryAttr_href_none_head a t hna)]
        unfold ciPrefix at h ⊢
        rw [if_pos hal] at h ⊢
        have hrec : ciPrefix ls t = none := by
          cases hrect : ciPrefix ls t with
          | none => rfl
          | some pr => rw [hrect] at h; obtain ⟨x, y⟩ := pr; simp at h
        rw [ih t (fun d hd => hl d (by simp [hd])) hrec]
      · cases hout : attrReplace hrefLit cb (a :: t) with
        | nil => simp [ciPrefix]
        | cons b u =>
          have hb : a = b := by
            have := attrReplace_href_head cb hcb (a :: t)
            rw [hout] at this
            simpa using this.symm
          subst hb
          unfold ciPrefix
          rw [if_neg hal]

/-- Destructuring of a literal that matched href= case-insensitively. -/
theorem ciEq_href_destruct (litc : List Char) (h : ciEqList litc hrefLit = true) :
    ∃ c0 c1 c2 c3 c4, litc = [c0, c1, c2, c3, c4] ∧
      c0.toLower = 'h' ∧ c1.toLower = 'r' ∧ c2.toLower = 'e' ∧
      c3.toLower = 'f' ∧ c4.toLower = '=' := by
  rw [show hrefLit = ['h', 'r', 'e', 'f', '='] from rfl] at h
  cases litc with
  | nil => simp [ciEqList] at h
  | cons c0 r0 =>
  cases r0 with
  | nil => simp [ciEqList] at h
  | cons c1 r1 =>
  cases r1 with
  | nil => simp [ciEqList] at h
  | cons c2 r2 =>
  cases r2 with
  | nil => simp [ciEqList] at h
  | cons c3 r3 =>
  cases r3 with
  | nil => simp [ciEqList] at h
  | cons c4 r4 =>
  cases r4 with
  | cons c5 r5 => simp [ciEqList] at h
  | nil =>
    simp only [ciEqList, Bool.and_eq_true, decide_eq_true_eq] at h
    exact ⟨c0, c1, c2, c3, c4, rfl, h.1, h.2.1, h.2.2.1, h.2.2.2.1, h.2.2.2.2.1⟩

/-- Quote characters are their own lower case. -/
theorem isQ_toLower (c : Char) (h : isQ c = true) : c.toLower = c := by
  unfold isQ at h
  rcases Bool.or_eq_true_iff.mp h with h | h <;>
    (simp only [decide_eq_true_eq] at h; subst h; decide)

/-- A character whose lower case is a letter is not a quote. -/
theorem isQ_false_of_toLower (c : Char) (x : Char) (hx : c.toLower = x)
    (hne : ∀ q : Char, isQ q = true → q ≠ x) : isQ c = false := by
  cases hq : isQ c with
  | false => rfl
  | true =>
    exfalso
    have := isQ_toLower c hq
    rw [this] at hx
    exact hne c hq hx

/-- A character whose lower case is not a quote is not a quote. -/
theorem isQ_false_of_toLower_ne (c : Char) (hc : isQ c.toLower = false) :
    isQ c = false := by
  cases h : isQ c with
  | false => rfl
  | true =>
    have := isQ_toLower c h
    rw [this] at hc
    rw [h] at hc
    cases hc

/-- Pointwise consequence of a case-insensitive literal match. -/
theorem ciEq_forall {a lit : List Char} (h : ciEqList a lit = true)
    {P : Char → Prop} (hP : ∀ c l, c.toLower = l.toLower → l ∈ lit → P c) :
    ∀ c ∈ a, P c := by
  induction lit generalizing a with
  | nil =>
    cases a with
    | nil => simp
    | cons x xs => simp [ciEqList] at h
  | cons l ls ih =>
    cases a with
    | nil => simp
    | cons x xs =>
      simp only [ciEqList, Bool.and_eq_true, decide_eq_true_eq] at h
      intro d hd
      rcases List.mem_cons.mp hd with rfl | hd'
      · exact hP d l h.1 (by simp)
      · exact ih h.2 (fun c l' hc hl' => hP c l' hc (by simp [hl'])) d hd'

/-- Unfolding step of ciPrefix for the href literal. -/
theorem ciPrefix_href_cons (c : Char) (x : List Char) (hch : c.toLower = 'h') :
    ciPrefix hrefLit (c :: x) =
      match ciPrefix ("ref=".toList) x with
      | some (a, r) => some (c :: a, r)
      | none => none := by
  conv_lhs => rw [show hrefLit = 'h' :: "ref=".toList from rfl]
  conv_lhs => unfold ciPrefix
  rw [if_pos (by simpa using hch)]

/-- A failed match attempt keeps failing on the scanner output: the
rewriting never creates a new match at a position where none was. -/
theorem tryAttr_none_stable (cb : String → String → String)
    (hcb : CbGood hrefLit cb) (c : Char) (s : List Char)
    (h : tryAttr hrefLit (c :: s) = none) :
    tryAttr hrefLit (c :: attrReplace hrefLit cb s) = none := by
  by_cases hch : c.toLower = 'h'
  case neg => exact tryAttr_href_none_head c _ hch
  case pos =>
    cases hcp4 : ciPrefix ("ref=".toList) s with
    | none =>
      have hst := ciPrefix_none_stable cb hcb ("ref=".toList) s
        (by intro d hd; rw [show "ref=".toList = ['r', 'e', 'f', '='] from rfl]
              at hd
            fin_cases hd <;> decide) hcp4
      unfold tryAttr
      rw [ciPrefix_href_cons c _ hch, hst]
    | some pr =>
      obtain ⟨litc4, cs1⟩ := pr
      obtain ⟨hs4, hci4⟩ := ciPrefix_some_split _ s litc4 cs1 hcp4
      have hlit4h : ∀ d ∈ litc4, ¬ d.toLower = 'h' :=
        ciEq_forall hci4 (fun d l hdl hl => by
          rw [show "ref=".toList = ['r', 'e', 'f', '='] from rfl] at hl
          fin_cases hl <;> (rw [hdl]; decide))
      have hlit4q : ∀ d ∈ litc4, isQ d = false :=
        ciEq_forall hci4 (fun d l hdl hl => by
          refine isQ_false_of_toLower_ne d ?_
          rw [hdl]
          rw [show "ref=".toList = ['r', 'e', 'f', '='] from rfl] at hl
          fin_cases hl <;> decide)
      have hcifull : ciEqList (c :: litc4) hrefLit = true := by
        rw [show hrefLit = 'h' :: "ref=".toList from rfl]
        simp only [ciEqList, Bool.and_eq_true, decide_eq_true_eq]
        exact ⟨by simpa using hch, hci4⟩
      have hfull : ciPrefix hrefLit (c :: s) = some (c :: litc4, cs1) := by
        have : c :: s = (c :: litc4) ++ cs1 := by rw [hs4]; rfl
        rw [this]
        exact ciPrefix_of_ciEq hrefLit (c :: litc4) cs1 hcifull
      cases cs1 with
      | nil =>
        have hqfree : ∀ d ∈ s, isQ d = false := by
          rw [hs4]
          simpa using hlit4q
        rw [attrReplace_no_quote hrefLit cb s hqfree]
        exact h
      | cons q1 cs2 =>
        by_cases hq1 : isQ q1 = true
        · cases cs2 with
          | nil =>
            have hone : s.countP isQ ≤ 1 := by
              rw [hs4]
              rw [List.countP_append]
              have : litc4.countP isQ = 0 := by
                rw [List.countP_eq_zero]
                intro a ha
                simp [hlit4q a ha]
              rw [this]
              simp [List.countP_cons, hq1]
            rw [attrReplace_le_one_quote hrefLit cb s.length s le_rfl hone]
            exact h
          | cons c2h cs3 =>
            by_cases hq2 : isQ c2h = true
            · have hq1h : ¬ q1.toLower = 'h' := by
                rw [isQ_toLower q1 hq1]
                intro he
                rw [he] at hq1
                cases hq1
              have hR : attrReplace hrefLit cb s =
                  litc4 ++ q1 :: attrReplace hrefLit cb (c2h :: cs3) := by
                rw [hs4, attrReplace_href_inert cb litc4 _ hlit4h,
                  attrReplace_cons_none hrefLit cb q1 _
                    (tryAttr_href_none_head q1 _ hq1h)]
              cases hout : attrReplace hrefLit cb (c2h :: cs3) with
              | nil =>
                have := attrReplace_href_head cb hcb (c2h :: cs3)
                rw [hout] at this
                simp at this
              | cons b u =>
                have hb : c2h = b := by
                  have := attrReplace_href_head cb hcb (c2h :: cs3)
                  rw [hout] at this
                  simpa using this.symm
                subst hb
                unfold tryAttr
                have hEq : c :: attrReplace hrefLit cb s =
                    (c :: litc4) ++ (q1 :: c2h :: u) := by
                  rw [hR, hout]
                  rfl
                rw [hEq, ciPrefix_of_ciEq hrefLit (c :: litc4) _ hcifull]
                simp only [if_pos hq1]
                rw [List.takeWhile_cons_of_neg (by simp [hq2])]
                simp
            · have hdw : (c2h :: cs3).dropWhile (fun d => !(isQ d)) = [] := by
                unfold tryAttr at h
                rw [hfull] at h
                simp only [if_pos hq1] at h
                rw [List.takeWhile_cons_of_pos (by simp [hq2])] at h
                simp only [reduceCtorEq, if_false] at h
                cases hd : (c2h :: cs3).dropWhile (fun d => !(isQ d)) with
                | nil => rfl
                | cons q2 rest =>
                  rw [hd] at h
                  cases h
              have hall : ∀ d ∈ c2h :: cs3, isQ d = false := by
                have hmem := List.dropWhile_eq_nil_iff.mp hdw
                intro d hd
                have := hmem d hd
                simpa using this
              have hone : s.countP isQ ≤ 1 := by
                rw [hs4]
                rw [List.countP_append]
                have h40 : litc4.countP isQ = 0 := by
                  rw [List.countP_eq_zero]
                  intro a ha
                  simp [hlit4q a ha]
                have h30 : (c2h :: cs3).countP isQ = 0 := by
                  rw [List.countP_eq_zero]
                  intro a ha
                  simp [hall a ha]
                rw [h40]
                simp [List.countP_cons, hq1, h30]
              rw [attrReplace_le_one_quote hrefLit cb s.length s le_rfl hone]
              exact h
        · have hR : attrReplace hrefLit cb s =
              litc4 ++ attrReplace hrefLit cb (q1 :: cs2) := by
            rw [hs4, attrReplace_href_inert cb litc4 _ hlit4h]
          cases hout : attrReplace hrefLit cb (q1 :: cs2) with
          | nil =>
            have := attrReplace_href_head cb hcb (q1 :: cs2)
            rw [hout] at this
            simp at this
          | cons b u =>
            have hb : q1 = b := by
              have := attrReplace_href_head cb hcb (q1 :: cs2)
              rw [hout] at this
              simpa using this.symm
            subst hb
            unfold tryAttr
            have hEq : c :: attrReplace hrefLit cb s =
                (c :: litc4) ++ (q1 :: u) := by
              rw [hR, hout]
              rfl
            rw [hEq, ciPrefix_of_ciEq hrefLit (c :: litc4) _ hcifull]
            simp only [if_neg hq1]

theorem tryAttr_nil (lit : List Char) : tryAttr lit [] = none := by
  cases lit <;> rfl

theorem attrReplace_eq_of_some (lit : List Char) (cb : String → String → String)
    (cs w g r : List Char) (h : tryAttr lit cs = some (w, g, r)) :
    attrReplace lit cb cs = (cb ⟨w⟩ ⟨g⟩).toList ++ attrReplace lit cb r := by
  cases cs with
  | nil => rw [tryAttr_nil] at h; cases h
  | cons c t => exact attrReplace_cons_some lit cb c t w g r h

/-- Idempotence of the href-rewriting scanner for any well-behaved
callback. -/
theorem attrReplace_href_idem (cb : String → String → String)
    (hcb : CbGood hrefLit cb) :
    ∀ n s, s.length ≤ n →
      attrReplace hrefLit cb (attrReplace hrefLit cb s) =
        attrReplace hrefLit cb s := by
  intro n
  induction n with
  | zero =>
    intro s hs
    have : s = [] := List.length_eq_zero.mp (Nat.le_zero.mp hs)
    subst this
    rfl
  | succ n ih =>
    intro s hs
    cases s with
    | nil => rfl
    | cons c t =>
      simp only [List.length_cons] at hs
      cases htry : tryAttr hrefLit (c :: t) with
      | some res =>
        obtain ⟨w, g, r⟩ := res
        rw [attrReplace_cons_some hrefLit cb c t w g r htry]
        obtain ⟨litc, q1, q2, hw, hcs, hci, hq1, hq2, hg, hgq⟩ :=
          tryAttr_some_inv hrefLit (c :: t) w g r htry
        have hrlen : r.length ≤ n := by
          have := tryAttr_rest_lt hrefLit (c :: t) w g r htry
          simp only [List.length_cons] at this
          omega
        rcases hcb litc g q1 q2 hci hq1 hq2 hg hgq with hkeep |
          ⟨rp, hout, hrpne, hrpq, hkeep2⟩
        · rw [hw, hkeep, toList_mk]
          have hmatch := tryAttr_prepend hrefLit litc g
            (attrReplace hrefLit cb r) q1 q2 hci hq1 hq2 hg hgq
          rw [attrReplace_eq_of_some hrefLit cb _ _ _ _ hmatch]
          rw [hkeep, toList_mk, ih r hrlen]
        · rw [hw, hout]
          have hmatch := tryAttr_prepend hrefLit litc rp
            (attrReplace hrefLit cb r) q1 q2 hci hq1 hq2 hrpne hrpq
          rw [attrReplace_eq_of_some hrefLit cb _ _ _ _ hmatch]
          rw [hkeep2, toList_mk, ih r hrlen]
      | none =>
        rw [attrReplace_cons_none hrefLit cb c t htry]
        have hst := tryAttr_none_stable cb hcb c t htry
        rw [attrReplace_cons_none hrefLit cb c _ hst]
        rw [ih t (by omega)]

theorem replaceFirstL_cons_neg (c : Char) (cs pat rep : List Char)
    (h : ¬ pat.isPrefixOf (c :: cs) = true) :
    replaceFirstL (c :: cs) pat rep = c :: replaceFirstL cs pat rep := by
  conv_lhs => unfold replaceFirstL
  rw [if_neg h]

theorem replaceFirstL_pre (s pat rep : List Char) (h : pat.isPrefixOf s = true) :
    replaceFirstL s pat rep = rep ++ s.drop pat.length := by
  conv_lhs => unfold replaceFirstL
  rw [if_pos h]

theorem jsStarts_toList (s p : String) (h : jsStarts s p = true) :
    ∃ t, s.toList = p.toList ++ t := by
  unfold jsStarts at h
  rw [List.isPrefixOf_iff_prefix] at h
  obtain ⟨t, ht⟩ := h
  exact ⟨t, ht.symm⟩

/-- In a matched href attribute whose value starts with a slash or with
http, the first occurrence of the value within the matched text is the
value position itself, so match.replace(href, r) substitutes exactly the
value. -/
theorem replaceFirst_href_value (c0 c1 c2 c3 c4 q1 q2 : Char) (g rp : List Char)
    (h0 : c0.toLower = 'h') (h1 : c1.toLower = 'r') (h2 : c2.toLower = 'e')
    (h3 : c3.toLower = 'f') (h4 : c4.toLower = '=') (hq1 : isQ q1 = true)
    (hgs : (∃ t, g = '/' :: t) ∨ (∃ t, g = 'h' :: 't' :: t)) :
    replaceFirstL ([c0, c1, c2, c3, c4] ++ q1 :: (g ++ [q2])) g rp =
      [c0, c1, c2, c3, c4] ++ q1 :: (rp ++ [q2]) := by
  have hslash : ∀ x : Char, x.toLower = 'h' ∨ x.toLower = 'r' ∨ x.toLower = 'e' ∨
      x.toLower = 'f' ∨ x.toLower = '=' → x ≠ '/' := by
    rintro x hx rfl
    rcases hx with hx | hx | hx | hx | hx <;> exact absurd hx (by decide)
  have hnp : ∀ (x : Char) (rest : List Char), x ≠ '/' → x ≠ 'h' →
      ¬ g.isPrefixOf (x :: rest) = true := by
    intro x rest hx1 hx2 hcontr
    rcases hgs with ⟨t, rfl⟩ | ⟨t, rfl⟩
    · simp only [List.isPrefixOf, Bool.and_eq_true, beq_iff_eq] at hcontr
      exact hx1 hcontr.1.symm
    · simp only [List.isPrefixOf, Bool.and_eq_true, beq_iff_eq] at hcontr
      exact hx2 hcontr.1.symm
  have hnp0 : ¬ g.isPrefixOf (c0 :: c1 :: c2 :: c3 :: c4 :: q1 :: (g ++ [q2]))
      = true := by
    intro hcontr
    rcases hgs with ⟨t, rfl⟩ | ⟨t, rfl⟩
    · simp only [List.isPrefixOf, Bool.and_eq_true, beq_iff_eq] at hcontr
      exact hslash c0 (Or.inl h0) hcontr.1.symm
    · simp only [List.isPrefixOf, Bool.and_eq_true, beq_iff_eq] at hcontr
      have : c1 = 't' := hcontr.2.1.symm
      rw [this] at h1
      exact absurd h1 (by decide)
  have hne : ∀ x : Char, x.toLower = 'r' ∨ x.toLower = 'e' ∨ x.toLower = 'f' ∨
      x.toLower = '=' → x ≠ 'h' := by
    rintro x hx rfl
    rcases hx with hx | hx | hx | hx <;> exact absurd hx (by decide)
  have hq1s : q1 ≠ '/' ∧ q1 ≠ 'h' := by
    constructor <;> rintro rfl <;> exact absurd hq1 (by decide)
  show replaceFirstL (c0 :: c1 :: c2 :: c3 :: c4 :: q1 :: (g ++ [q2])) g rp = _
  rw [replaceFirstL_cons_neg _ _ _ _ hnp0,
    replaceFirstL_cons_neg _ _ _ _
      (hnp c1 _ (hslash c1 (Or.inr (Or.inl h1))) (hne c1 (Or.inl h1))),
    replaceFirstL_cons_neg _ _ _ _
      (hnp c2 _ (hslash c2 (Or.inr (Or.inr (Or.inl h2))))
        (hne c2 (Or.inr (Or.inl h2)))),
    replaceFirstL_cons_neg _ _ _ _
      (hnp c3 _ (hslash c3 (Or.inr (Or.inr (Or.inr (Or.inl h3)))))
        (hne c3 (Or.inr (Or.inr (Or.inl h3))))),
    replaceFirstL_cons_neg _ _ _ _
      (hnp c4 _ (hslash c4 (Or.inr (Or.inr (Or.inr (Or.inr h4)))))
        (hne c4 (Or.inr (Or.inr (Or.inr h4))))),
    replaceFirstL_cons_neg _ _ _ _ (hnp q1 _ hq1s.1 hq1s.2),
    replaceFirstL_pre _ _ _ (List.isPrefixOf_iff_prefix.mpr ⟨[q2], rfl⟩),
    List.drop_left]
  rfl

theorem fixLinksTarget_some_shape (env : LinkEnv) (g tp : String)
    (h : fixLinksTarget env g = some tp) :
    (∃ t, g.toList = '/' :: t) ∨ (∃ t, g.toList = 'h' :: 't' :: t) := by
  unfold fixLinksTarget at h
  split at h
  next hhp =>
    right
    rcases Bool.or_eq_true_iff.mp hhp with hs | hs
    · obtain ⟨t, ht⟩ := jsStarts_toList g "http://" hs
      exact ⟨_, by rw [ht]; rfl⟩
    · obtain ⟨t, ht⟩ := jsStarts_toList g "https://" hs
      exact ⟨_, by rw [ht]; rfl⟩
  next =>
    split at h
    next hsl =>
      left
      obtain ⟨t, ht⟩ := jsStarts_toList g "/" hsl
      exact ⟨_, by rw [ht]; rfl⟩
    next => cases h

theorem fixLinksTarget_none_of_rel (env : LinkEnv) (g : String)
    (h1 : jsStarts g "http://" = false) (h2 : jsStarts g "https://" = false)
    (h3 : jsStarts g "/" = false) : fixLinksTarget env g = none := by
  unfold fixLinksTarget
  rw [if_neg (by simp [h1, h2]), if_neg (by simp [h3])]

/-- The fix-links callback is well behaved: it either keeps a match or
replaces the value by a relative path that a second pass skips. -/
theorem fixCb_good (env : LinkEnv) (hrel : GoodRel env.relPath) :
    CbGood hrefLit (fixLinksCb env) := by
  intro litc g q1 q2 hci hq1 hq2 hg hgq
  unfold fixLinksCb
  split
  next => exact Or.inl rfl
  next hskip =>
    split
    next => exact Or.inl rfl
    next tp htg =>
      split
      next htp =>
        dsimp only
        split
        next hex =>
          right
          obtain ⟨c0, c1, c2, c3, c4, hlitc, h0, h1, h2, h3, h4⟩ :=
            ciEq_href_destruct litc hci
          have hshape := fixLinksTarget_some_shape env ⟨g⟩ tp htg
          rw [toList_mk] at hshape
          have hgs : (∃ t, g = '/' :: t) ∨ (∃ t, g = 'h' :: 't' :: t) := hshape
          obtain ⟨hne, hqf, hh1, hh2, hh3⟩ :=
            hrel (pathJoin3 OUT (safeFileName tp) "index.html")
          set rps := env.relPath (pathJoin3 OUT (safeFileName tp) "index.html")
            with hrps
          refine ⟨rps.toList, ?_, ?_, ?_, ?_⟩
          · unfold jsReplaceFirst
            rw [toList_mk, toList_mk, toList_mk, hlitc]
            exact replaceFirst_href_value c0 c1 c2 c3 c4 q1 q2 g rps.toList
              h0 h1 h2 h3 h4 hq1 hgs
          · intro hcontr
            apply hne
            have := congrArg (fun l => (⟨l⟩ : String)) hcontr
            simpa [mk_toList] using this
          · exact hqf
          · rw [mk_toList]
            split
            next => rfl
            next =>
              rw [fixLinksTarget_none_of_rel env rps hh1 hh2 hh3]
        next => exact Or.inl rfl
      next => exact Or.inl rfl

/-! ## Claim C5: link-repair pass is idempotent on its own output -/

/-- Claim C5: the link-repair rewrite of src/fix-links.mjs is idempotent on
its own output against an unchanged set of on-disk pages, and it never
re-breaks a link previously rewritten: an already-relative href (one that
is not an absolute URL and not an absolute path — in particular every path
produced by a previous rewrite) is left unchanged, whether or not it still
points at an existing file.  The hypotheses on env.relPath state the facts
about path.relative outputs the pass relies on: nonempty, quote-free,
relative. -/
theorem fixLinks_C5 (env : LinkEnv) (hrel : GoodRel env.relPath) :
    (∀ html : String, rewriteLinksFix env (rewriteLinksFix env html) =
      rewriteLinksFix env html) ∧
    (∀ whole href : String,
      jsStarts href "http://" = false → jsStarts href "https://" = false →
      jsStarts href "/" = false →
      fixLinksCb env whole href = whole) := by
  constructor
  · intro html
    unfold rewriteLinksFix
    congr 1
    rw [toList_mk]
    exact attrReplace_href_idem (fixLinksCb env) (fixCb_good env hrel)
      html.toList.length html.toList le_rfl
  · intro whole href h1 h2 h3
    unfold fixLinksCb
    split
    next => rfl
    next => rw [fixLinksTarget_none_of_rel env href h1 h2 h3]

/-- Witness for fixLinks_C5 at a concrete mirror: a document whose
absolute link gets rewritten on the first pass is unchanged by a second
pass, and a relative href is left untouched. -/
theorem fixLinks_C5_witness :
    rewriteLinksFix envFix (rewriteLinksFix envFix
      "<a href=\"/about/\">About</a>") =
      rewriteLinksFix envFix "<a href=\"/about/\">About</a>" ∧
    fixLinksCb envFix "href=\"index.html\"" "index.html" =
      "href=\"index.html\"" := by
  have hrel : GoodRel envFix.relPath := by
    intro t
    show ("../about/index.html" : String) ≠ "" ∧
      (∀ c ∈ ("../about/index.html" : String).toList, isQ c = false) ∧
      jsStarts "../about/index.html" "http://" = false ∧
      jsStarts "../about/index.html" "https://" = false ∧
      jsStarts "../about/index.html" "/" = false
    refine ⟨by decide, by decide, by decide, by decide, by decide⟩
  exact ⟨(fixLinks_C5 envFix hrel).1 "<a href=\"/about/\">About</a>",
    (fixLinks_C5 envFix hrel).2 "href=\"index.html\"" "index.html"
      (by decide) (by decide) (by decide)⟩

/-! ## Claim C7: internal-link resolution branches -/

theorem isPrefixOf_cons_cons (a b : Char) (as bs : List Char) :
    (a :: as).isPrefixOf (b :: bs) = (a == b && as.isPrefixOf bs) := rfl

theorem jsStarts_false_of_head (s : String) (c : Char) (r : List Char)
    (hs : s.toList = c :: r) (p : Char) (ps : List Char) (pl : String)
    (hp : pl.toList = p :: ps) (hne : (p == c) = false) :
    jsStarts s pl = false := by
  unfold jsStarts
  rw [hs, hp, isPrefixOf_cons_cons, hne, Bool.false_and]

theorem ne_of_toList_head (s : String) (c : Char) (r : List Char)
    (hs : s.toList = c :: r) (t : String)
    (hh : t.toList.head? ≠ some c) : s ≠ t := by
  intro he
  subst he
  rw [hs] at hh
  exact hh rfl

theorem toList_shape_of_jsStarts (s p : String) (c : Char) (pr : List Char)
    (hp : p.toList = c :: pr) (h : jsStarts s p = true) :
    ∃ r, s.toList = c :: r := by
  unfold jsStarts at h
  rw [hp] at h
  cases hl : s.toList with
  | nil => rw [hl] at h; simp [List.isPrefixOf] at h
  | cons b bs =>
    rw [hl, isPrefixOf_cons_cons, Bool.and_eq_true, beq_iff_eq] at h
    exact ⟨bs, by rw [h.1]⟩

theorem jsStarts_slash2_false (s : String) (h : jsStarts s "/" = false) :
    jsStarts s "//" = false := by
  unfold jsStarts at h ⊢
  rw [show ("/".toList : List Char) = ['/'] from rfl] at h
  rw [show ("//".toList : List Char) = ['/', '/'] from rfl]
  generalize hg : s.toList = L at h ⊢
  cases L with
  | nil => rfl
  | cons b bs =>
    rw [isPrefixOf_cons_cons] at h ⊢
    cases hb : ('/' == b) with
    | false => rw [Bool.false_and]
    | true => rw [hb, Bool.true_and] at h; simp [List.isPrefixOf] at h

/-- Claim C7 counterexample: contrary to the specification,
a protocol-relative href is NOT left unchanged.  In rewriteInternalLinks
(src/scrape.mjs lines 598-633) the href.startsWith("/") branch is tested
before any "//" guard, so "//cdn.example.com/lib" is taken verbatim as a
site path, mapped by safeFileName to cdn.example.com/lib, and — the target
index file existing on disk — rewritten to a relative local path. -/
theorem rewriteInternalLinks_C7_counterexample :
    rewriteLinksScrape envC7 "https://www.fruitpunch.ai/"
      "<a href=\"//cdn.example.com/lib\">x</a>" =
      "<a href=\"../cdn.example.com/lib/index.html\">x</a>" ∧
    ("<a href=\"//cdn.example.com/lib\">x</a>" : String) ≠
      "<a href=\"../cdn.example.com/lib/index.html\">x</a>" := by
  refine ⟨by decide, by decide⟩

/-- Claim C7 (amended): internal-link resolution in rewriteInternalLinks
(src/scrape.mjs lines 579-651) behaves as specified on every class of href
EXCEPT protocol-relative ones.  (1) Anchors, mailto:, tel:, javascript:,
data: and empty hrefs are left unchanged.  (2) A cross-site absolute URL
is left unchanged.  (3) An href starting with "/" — including a
protocol-relative "//host/path" href, since the startsWith("/") branch is
tested before any "//" guard — is taken verbatim as a site path and
rewritten to the relative path of the mapped target exactly when the
mapped target's index document already exists on disk.  (4) A remaining
(relative) href is resolved against the page URL, and when the resolution
is same-site with a nonempty pathname it is rewritten exactly when the
mapped target's index document already exists on disk. -/
theorem rewriteInternalLinks_C7_amended (env : LinkEnv) (pageUrl : String) :
    (∀ whole href : String,
      jsStarts href "#" = true ∨ jsStarts href "mailto:" = true ∨
      jsStarts href "tel:" = true ∨ jsStarts href "javascript:" = true ∨
      jsStarts href "data:" = true ∨ href = "" →
      scrapeLinksCb env pageUrl whole href = whole) ∧
    (∀ whole href : String, ∀ u : Url,
      (jsStarts href "http://" = true ∨ jsStarts href "https://" = true) →
      env.parse href = some u →
      (normalizeOrigin u == normalizeOrigin BASE) = false →
      scrapeLinksCb env pageUrl whole href = whole) ∧
    (∀ whole href : String, jsStarts href "/" = true →
      scrapeLinksCb env pageUrl whole href =
        (if env.fileExists (pathJoin3 OUT (safeFileName href) "index.html")
         then jsReplaceFirst whole href
           (env.relPath (pathJoin3 OUT (safeFileName href) "index.html"))
         else whole)) ∧
    (∀ whole href : String, ∀ u : Url,
      jsStarts href "#" = false → jsStarts href "mailto:" = false →
      jsStarts href "tel:" = false → jsStarts href "javascript:" = false →
      jsStarts href "data:" = false → href ≠ "" →
      jsStarts href "http://" = false → jsStarts href "https://" = false →
      jsStarts href "/" = false →
      env.resolveRel href pageUrl = some u →
      (normalizeOrigin u == normalizeOrigin BASE) = true →
      u.pathname ≠ "" →
      scrapeLinksCb env pageUrl whole href =
        (if env.fileExists (pathJoin3 OUT (safeFileName u.pathname)
            "index.html")
         then jsReplaceFirst whole href
           (env.relPath (pathJoin3 OUT (safeFileName u.pathname)
             "index.html"))
         else whole)) := by
  refine ⟨?_, ?_, ?_, ?_⟩
  · intro whole href h
    unfold scrapeLinksCb
    rcases h with h | h | h | h | h | h <;> simp [h]
  · intro whole href u habs hparse hfor
    obtain ⟨r, ht⟩ : ∃ r, href.toList = 'h' :: r := by
      rcases habs with h | h
      · exact toList_shape_of_jsStarts href "http://" 'h' _ rfl h
      · exact toList_shape_of_jsStarts href "https://" 'h' _ rfl h
    have habs2 : (jsStarts href "http://" || jsStarts href "https://") =
        true := by rcases habs with h | h <;> simp [h]
    have hne1 : href ≠ "#" := ne_of_toList_head href 'h' r ht "#" (by decide)
    have hne2 : href ≠ "" := ne_of_toList_head href 'h' r ht "" (by decide)
    unfold scrapeLinksCb linkTarget
    simp only [jsStarts_false_of_head href 'h' r ht '#' _ "#" rfl (by decide),
      jsStarts_false_of_head href 'h' r ht 'm' _ "mailto:" rfl (by decide),
      jsStarts_false_of_head href 'h' r ht 't' _ "tel:" rfl (by decide),
      jsStarts_false_of_head href 'h' r ht 'j' _ "javascript:" rfl
        (by decide),
      jsStarts_false_of_head href 'h' r ht 'd' _ "data:" rfl (by decide),
      hne1, hne2, habs2, hparse, hfor, decide_eq_false, Bool.false_or,
      Bool.or_false, if_true, if_false, Bool.false_eq_true, ite_false,
      ite_true]
    simp
  · intro whole href h
    obtain ⟨r, ht⟩ : ∃ r, href.toList = '/' :: r :=
      toList_shape_of_jsStarts href "/" '/' _ rfl h
    have hne1 : href ≠ "#" := ne_of_toList_head href '/' r ht "#" (by decide)
    have hne2 : href ≠ "" := ne_of_toList_head href '/' r ht "" (by decide)
    unfold scrapeLinksCb linkTarget
    simp only [jsStarts_false_of_head href '/' r ht '#' _ "#" rfl (by decide),
      jsStarts_false_of_head href '/' r ht 'm' _ "mailto:" rfl (by decide),
      jsStarts_false_of_head href '/' r ht 't' _ "tel:" rfl (by decide),
      jsStarts_false_of_head href '/' r ht 'j' _ "javascript:" rfl
        (by decide),
      jsStarts_false_of_head href '/' r ht 'd' _ "data:" rfl (by decide),
      jsStarts_false_of_head href '/' r ht 'h' _ "http://" rfl (by decide),
      jsStarts_false_of_head href '/' r ht 'h' _ "https://" rfl (by decide),
      hne1, hne2, h, decide_eq_false, Bool.false_or, Bool.or_false,
      if_true, if_false, Bool.false_eq_true, ite_false, ite_true,
      ne_eq, not_false_eq_true]
  · intro whole href u h1 h2 h3 h4 h5 h6 h7 h8 h9 hres hsame hpne
    have h10 : jsStarts href "//" = false := jsStarts_slash2_false href h9
    have hne1 : href ≠ "#" := by
      intro he
      rw [he] at h1
      exact absurd h1 (by decide)
    unfold scrapeLinksCb linkTarget
    simp only [h1, h2, h3, h4, h5, h6, h7, h8, h9, h10, hres, hsame, hpne,
      hne1, decide_eq_false, Bool.false_or, Bool.or_false, Bool.not_false,
      if_true, if_false, Bool.false_eq_true, ite_false, ite_true, ne_eq,
      not_false_eq_true]

/-- Witness for rewriteInternalLinks_C7_amended at concrete inputs: a
mailto: href and a cross-site absolute URL are kept, an absolute site path
whose target exists is rewritten, and a relative href resolving same-site
to an existing target is rewritten. -/
theorem rewriteInternalLinks_C7_amended_witness :
    scrapeLinksCb envC7 "https://www.fruitpunch.ai/"
      "href=\"mailto:a@b\"" "mailto:a@b" = "href=\"mailto:a@b\"" ∧
    scrapeLinksCb envC7 "https://www.fruitpunch.ai/"
      "href=\"https://other.example/x\"" "https://other.example/x" =
      "href=\"https://other.example/x\"" ∧
    scrapeLinksCb envC7 "https://www.fruitpunch.ai/"
      "href=\"/cdn.example.com/lib\"" "/cdn.example.com/lib" =
      "href=\"../cdn.example.com/lib/index.html\"" ∧
    scrapeLinksCb envRel "https://www.fruitpunch.ai/"
      "href=\"about/\"" "about/" = "href=\"about/index.html\"" := by
  refine ⟨?_, ?_, ?_, ?_⟩
  · exact (rewriteInternalLinks_C7_amended envC7
      "https://www.fruitpunch.ai/").1 "href=\"mailto:a@b\"" "mailto:a@b"
      (Or.inr (Or.inl (by decide)))
  · exact (rewriteInternalLinks_C7_amended envC7
      "https://www.fruitpunch.ai/").2.1 "href=\"https://other.example/x\""
      "https://other.example/x"
      { scheme := "https", hostname := "other.example", port := "",
        pathname := "/x", search := "", hash := "" }
      (Or.inr (by decide)) (by decide) (by decide)
  · exact ((rewriteInternalLinks_C7_amended envC7
      "https://www.fruitpunch.ai/").2.2.1 "href=\"/cdn.example.com/lib\""
      "/cdn.example.com/lib" (by decide)).trans (by decide)
  · exact ((rewriteInternalLinks_C7_amended envRel
      "https://www.fruitpunch.ai/").2.2.2 "href=\"about/\"" "about/" uAbout
      (by decide) (by decide) (by decide) (by decide) (by decide)
      (by decide) (by decide) (by decide) (by decide) (by decide)
      (by decide) (by decide)).trans (by decide)

/-! ## Claim C3: unresolved references and the srcset pass -/

/-- Claim C3 counterexample: contrary to the specification, an unmapped
srcset value is NOT byte-identical in the output.  The srcset pass of
rewriteHtml (src/scrape.mjs lines 560-574) rebuilds the whole attribute
unconditionally: single quotes become double quotes and entry separators
are re-serialized as ", ", even though no entry has a local mapping. -/
theorem rewriteHtml_C3_counterexample :
    srcsetPass [] (fun lp => lp) "<img srcset='a.png 1w,b.png 2w'>" =
      "<img srcset=\"a.png 1w, b.png 2w\">" ∧
    ("<img srcset='a.png 1w,b.png 2w'>" : String) ≠
      "<img srcset=\"a.png 1w, b.png 2w\">" :=
  ⟨by decide, by decide⟩

theorem srcsetPart_unmapped (m : List (String × String))
    (relp : String → String) (part : List Char)
    (h : (match splitWsTrimmed (trimL part) with
      | [] => true
      | url :: _ => (truthyGet m ⟨url⟩).isNone || jsStarts ⟨url⟩ "data:" ||
          jsStarts ⟨url⟩ "blob:") = true) :
    srcsetPart m relp part = trimL part := by
  unfold srcsetPart
  dsimp only
  split
  · rfl
  next url rest heq =>
    rw [heq] at h
    dsimp only at h
    split
    next => rfl
    next hdb =>
      rw [Bool.or_eq_true, Bool.or_eq_true] at h
      rcases h with (ha | hb) | h2
      · rw [Option.isNone_iff_eq_none.mp ha]
      · exact absurd (by rw [Bool.or_eq_true]; exact Or.inl hb) hdb
      · exact absurd (by rw [Bool.or_eq_true]; exact Or.inr h2) hdb

/-- Claim C3 (amended): the link-href, script-src and img-src passes of
rewriteHtml return the match unchanged whenever the captured URL has no
truthy entry in the resolved asset map, so those unresolved references are
byte-identical in the output.  The srcset pass, however, rebuilds the
attribute unconditionally: when no entry is mapped the output is the
normalized serialization srcset="e1, e2, ..." of the trimmed entries —
equivalent content, but not byte-identical (quote style and separator
whitespace are normalized, as the counterexample shows). -/
theorem rewriteHtml_C3_amended (m : List (String × String))
    (relp : String → String) :
    (∀ whole href : String, truthyGet m href = none →
      linkHrefCb m relp whole href = whole) ∧
    (∀ whole src : String, truthyGet m src = none →
      scriptSrcCb m relp whole src = whole) ∧
    (∀ whole src : String, truthyGet m src = none →
      imgSrcCb m relp whole src = whole) ∧
    (∀ whole g : String, srcsetUnmapped m g = true →
      srcsetCb m relp whole g =
        ⟨"srcset=".toList ++ '"' ::
          (List.intercalate (", ".toList)
            ((splitOnChar ',' g.toList).map trimL)) ++ ['"']⟩) := by
  refine ⟨?_, ?_, ?_, ?_⟩
  · intro whole href h
    unfold linkHrefCb
    split
    · rfl
    · rw [h]
  · intro whole src h
    unfold scriptSrcCb
    split
    · rfl
    · rw [h]
  · intro whole src h
    unfold imgSrcCb
    split
    · rfl
    · rw [h]
  · intro whole g h
    unfold srcsetUnmapped at h
    unfold srcsetCb
    have hmap : (splitOnChar ',' g.toList).map (srcsetPart m relp) =
        (splitOnChar ',' g.toList).map trimL :=
      List.map_congr_left (fun part hp =>
        srcsetPart_unmapped m relp part (List.all_eq_true.mp h part hp))
    rw [hmap]

/-- Witness for rewriteHtml_C3_amended: with a map holding only x.png, an
unmapped link href is untouched, an unmapped script src is untouched, an
unmapped img src is untouched, and an unmapped srcset attribute is
re-serialized in normalized form. -/
theorem rewriteHtml_C3_amended_witness :
    linkHrefCb mC3 (fun lp => lp) "href=\"style.css\"" "style.css" =
      "href=\"style.css\"" ∧
    scriptSrcCb mC3 (fun lp => lp) "src=\"app.js\"" "app.js" =
      "src=\"app.js\"" ∧
    imgSrcCb mC3 (fun lp => lp) "src=\"hero.jpg\"" "hero.jpg" =
      "src=\"hero.jpg\"" ∧
    srcsetCb mC3 (fun lp => lp) "srcset='a.png 1w,b.png 2w'"
      "a.png 1w,b.png 2w" = "srcset=\"a.png 1w, b.png 2w\"" := by
  refine ⟨?_, ?_, ?_, ?_⟩
  · exact (rewriteHtml_C3_amended mC3 (fun lp => lp)).1 "href=\"style.css\""
      "style.css" (by decide)
  · exact (rewriteHtml_C3_amended mC3 (fun lp => lp)).2.1 "src=\"app.js\""
      "app.js" (by decide)
  · exact (rewriteHtml_C3_amended mC3 (fun lp => lp)).2.2.1 "src=\"hero.jpg\""
      "hero.jpg" (by decide)
  · exact ((rewriteHtml_C3_amended mC3 (fun lp => lp)).2.2.2
      "srcset='a.png 1w,b.png 2w'" "a.png 1w,b.png 2w"
      (by decide)).trans (by decide)

/-! ## Claim C4: CSS reference rewriting is not idempotent in general -/

/-- Claim C4 counterexample: with the fixed resolved map
{https://s/a.png ↦ _assets/a.png, a.png ↦ _assets/b.png} and the
stylesheet stored at _assets/main.css, the first rewrite turns
url(https://s/a.png) into url("a.png"), and a second rewrite with the
unchanged map turns that into url("b.png"): the produced relative path
a.png is itself a key of the map, so rewrite(rewrite(css)) ≠
rewrite(css). -/
theorem cssRewrite_C4_counterexample :
    cssRewrite mC4 resolveC4 relpC4 "url(https://s/a.png)" =
      "url(\"a.png\")" ∧
    cssRewrite mC4 resolveC4 relpC4
      (cssRewrite mC4 resolveC4 relpC4 "url(https://s/a.png)") =
      "url(\"b.png\")" ∧
    ("url(\"a.png\")" : String) ≠ "url(\"b.png\")" :=
  ⟨by decide, by decide, by decide⟩

theorem toNat_ofNat_valid (n : Nat) (h : n < 55296) :
    (Char.ofNat n).toNat = n := by
  rw [Char.ofNat, dif_pos (Or.inl h)]
  rfl

theorem isStop_cases (s : Char) (hs : isStop s = true) :
    s = '"' ∨ s = '\'' ∨ s = ')' := by
  unfold isStop at hs
  rw [Bool.or_eq_true, Bool.or_eq_true] at hs
  rcases hs with (h | h) | h <;> simp only [decide_eq_true_eq] at h
  · exact Or.inl h
  · exact Or.inr (Or.inl h)
  · exact Or.inr (Or.inr h)

theorem stop_toLower_self (s : Char) (hs : isStop s = true) :
    s.toLower = s := by
  rcases isStop_cases s hs with rfl | rfl | rfl <;> decide

theorem toLower_eq_stop (f s : Char) (hs : isStop s = true)
    (h : f.toLower = s) : f = s := by
  unfold Char.toLower at h
  dsimp only at h
  split at h
  next hn =>
    have h2 := congrArg Char.toNat h
    rw [toNat_ofNat_valid (Char.toNat f + 32) (by omega)] at h2
    have hsn : s.toNat ≤ 41 := by
      rcases isStop_cases s hs with rfl | rfl | rfl <;> decide
    omega
  next => exact h

theorem isQ_isStop (c : Char) (h : isQ c = true) : isStop c = true := by
  unfold isQ at h
  rw [Bool.or_eq_true] at h
  unfold isStop
  rcases h with h | h <;> simp only [decide_eq_true_eq] at h <;> subst h <;> rfl

theorem isQ_of_stop_ne (e : Char) (hs : isStop e = true) (hne : e ≠ ')') :
    isQ e = true := by
  rcases isStop_cases e hs with rfl | rfl | rfl
  · rfl
  · rfl
  · exact absurd rfl hne

theorem nonstop_ne_close (c : Char) (h : isStop c = false) : c ≠ ')' := by
  rintro rfl
  cases h

theorem nonstop_not_q (c : Char) (h : isStop c = false) : isQ c = false := by
  cases hq : isQ c with
  | false => rfl
  | true => rw [isQ_isStop c hq] at h; cases h

theorem isStop_false_of_toLower (c : Char) (h : isStop c.toLower = false) :
    isStop c = false := by
  cases hc : isStop c with
  | false => rfl
  | true => rw [stop_toLower_self c hc, hc] at h; cases h

theorem toLower_stop_eq (a b : Char) (hab : b.toLower = a.toLower)
    (ha : isStop a = true) : b = a := by
  rw [stop_toLower_self a ha] at hab
  exact toLower_eq_stop b a ha hab

theorem ciEq_urlLit_nonstop (litc : List Char)
    (h : ciEqList litc urlLit = true) : ∀ c ∈ litc, isStop c = false :=
  ciEq_forall h (fun c l hc hl => by
    refine isStop_false_of_toLower c ?_
    rw [hc]
    rw [show urlLit = ['u', 'r', 'l', '('] from rfl] at hl
    fin_cases hl <;> decide)

theorem ciEq_urlLit_not_u_tail (litc : List Char)
    (h : ciEqList litc ("rl(".toList) = true) :
    ∀ c ∈ litc, ¬ c.toLower = 'u' :=
  ciEq_forall h (fun c l hc hl => by
    rw [show ("rl(".toList : List Char) = ['r', 'l', '('] from rfl] at hl
    fin_cases hl <;> (rw [hc]; decide))

theorem cssTail_some_inv (pre u w g r : List Char)
    (h : cssTail pre u = some (w, g, r)) :
    ∃ A q2 : List Char, w = pre ++ (A ++ (q2 ++ [')'])) ∧
      u = A ++ (q2 ++ (')' :: r)) ∧ A ≠ [] ∧
      (∀ c ∈ A, isStop c = false) ∧ g = A ∧
      (q2 = [] ∨ ∃ a, q2 = [a] ∧ isQ a = true) := by
  unfold cssTail at h
  split at h
  next => cases h
  next htk =>
    split at h
    next => cases h
    next e rest hdw =>
      have hu : u = u.takeWhile (fun c => !(isStop c)) ++ (e :: rest) := by
        conv_lhs => rw [← List.takeWhile_append_dropWhile
          (p := fun c => !(isStop c)) (l := u)]
        rw [hdw]
      have hAs : ∀ c ∈ u.takeWhile (fun c => !(isStop c)), isStop c = false := by
        intro c hc
        have := List.mem_takeWhile_imp hc
        simpa using this
      have hes : isStop e = true := by
        have := head?_dropWhile_ne (fun c => !(isStop c)) u e (by rw [hdw]; rfl)
        simpa using this
      split at h
      next he =>
        simp only [Option.some.injEq, Prod.mk.injEq] at h
        obtain ⟨hw, hg, hr⟩ := h
        subst he hr
        refine ⟨u.takeWhile (fun c => !(isStop c)), [], ?_, ?_, htk, hAs,
          hg.symm, Or.inl rfl⟩
        · rw [← hw]; simp
        · conv_lhs => rw [hu]
          simp
      next he =>
        split at h
        next rest2 =>
          simp only [Option.some.injEq, Prod.mk.injEq] at h
          obtain ⟨hw, hg, hr⟩ := h
          subst hr
          refine ⟨u.takeWhile (fun c => !(isStop c)), [e], ?_, ?_, htk, hAs,
            hg.symm, Or.inr ⟨e, rfl, isQ_of_stop_ne e hes he⟩⟩
          · rw [← hw]; simp
          · conv_lhs => rw [hu]
            simp
        next => cases h

theorem tryCss_some_inv (cs w g r : List Char) (h : tryCss cs = some (w, g, r)) :
    ∃ litc q1 q2 : List Char, w = litc ++ q1 ++ (g ++ q2 ++ [')']) ∧
      cs = w ++ r ∧ ciEqList litc urlLit = true ∧
      (q1 = [] ∨ ∃ a, q1 = [a] ∧ isQ a = true) ∧
      (q2 = [] ∨ ∃ a, q2 = [a] ∧ isQ a = true) ∧
      g ≠ [] ∧ (∀ c ∈ g, isStop c = false) := by
  unfold tryCss at h
  split at h
  next => cases h
  next litc cs1 hp =>
    obtain ⟨hsplit, hci⟩ := ciPrefix_some_split urlLit cs litc cs1 hp
    split at h
    next => cases h
    next d ds =>
      split at h
      next hq =>
        obtain ⟨A, q2, hw, hu, hA, hAs, hgA, hq2⟩ :=
          cssTail_some_inv _ _ _ _ _ h
        subst hgA
        refine ⟨litc, [d], q2, ?_, ?_, hci, Or.inr ⟨d, rfl, hq⟩, hq2, hA, hAs⟩
        · rw [hw]; simp
        · rw [hsplit, hw, hu]; simp
      next hq =>
        obtain ⟨A, q2, hw, hu, hA, hAs, hgA, hq2⟩ :=
          cssTail_some_inv _ _ _ _ _ h
        subst hgA
        refine ⟨litc, [], q2, ?_, ?_, hci, Or.inl rfl, hq2, hA, hAs⟩
        · rw [hw]; simp
        · rw [hsplit, hw, hu]; simp

theorem tryCss_rest_lt (cs w g r : List Char)
    (h : tryCss cs = some (w, g, r)) : r.length < cs.length := by
  obtain ⟨litc, q1, q2, hw, hcs, -, -, -, -, -⟩ := tryCss_some_inv cs w g r h
  rw [hcs, hw]
  simp
  omega

theorem cssReplaceFuel_congr (cb : String → String → String) :
    ∀ n m cs, cs.length ≤ n → cs.length ≤ m →
      cssReplaceFuel cb n cs = cssReplaceFuel cb m cs := by
  intro n
  induction n with
  | zero =>
    intro m cs hn _
    have : cs = [] := List.length_eq_zero.mp (Nat.le_zero.mp hn)
    subst this
    cases m <;> rfl
  | succ n ih =>
    intro m cs hn hm
    cases cs with
    | nil => cases m <;> rfl
    | cons c t =>
      cases m with
      | zero => simp at hm
      | succ m' =>
        simp only [cssReplaceFuel]
        simp only [List.length_cons] at hn hm
        cases htry : tryCss (c :: t) with
        | some res =>
          obtain ⟨w, g, r⟩ := res
          have hlt := tryCss_rest_lt (c :: t) w g r htry
          simp only [List.length_cons] at hlt
          have h1 : r.length ≤ n := by omega
          have h2 : r.length ≤ m' := by omega
          simp only [ih m' r h1 h2]
        | none =>
          have h1 : t.length ≤ n := by omega
          have h2 : t.length ≤ m' := by omega
          simp only [ih m' t h1 h2]

theorem cssReplace_cons_some (cb : String → String → String)
    (c : Char) (t w g r : List Char) (htry : tryCss (c :: t) = some (w, g, r)) :
    cssReplace cb (c :: t) = (cb ⟨w⟩ ⟨g⟩).toList ++ cssReplace cb r := by
  unfold cssReplace
  show cssReplaceFuel cb (t.length + 1) (c :: t) = _
  simp only [cssReplaceFuel, htry]
  have hlt := tryCss_rest_lt (c :: t) w g r htry
  simp only [List.length_cons] at hlt
  rw [cssReplaceFuel_congr cb t.length r.length r (by omega) (by omega)]

theorem cssReplace_cons_none (cb : String → String → String)
    (c : Char) (t : List Char) (htry : tryCss (c :: t) = none) :
    cssReplace cb (c :: t) = c :: cssReplace cb t := by
  unfold cssReplace
  show cssReplaceFuel cb (t.length + 1) (c :: t) = _
  simp only [cssReplaceFuel, htry]

theorem tryCss_nil : tryCss [] = none := rfl

theorem cssReplace_eq_of_some (cb : String → String → String)
    (cs w g r : List Char) (h : tryCss cs = some (w, g, r)) :
    cssReplace cb cs = (cb ⟨w⟩ ⟨g⟩).toList ++ cssReplace cb r := by
  cases cs with
  | nil => rw [tryCss_nil] at h; cases h
  | cons c t => exact cssReplace_cons_some cb c t w g r h

theorem isQ_ne_close (b : Char) (h : isQ b = true) : b ≠ ')' := by
  unfold isQ at h
  rw [Bool.or_eq_true] at h
  rcases h with h | h <;> simp only [decide_eq_true_eq] at h <;> subst h <;>
    decide

theorem cssTail_closed (pre g q2 x : List Char)
    (hq2 : q2 = [] ∨ ∃ a, q2 = [a] ∧ isQ a = true)
    (hg : g ≠ []) (hgs : ∀ c ∈ g, isStop c = false) :
    cssTail pre (g ++ (q2 ++ (')' :: x))) =
      some (pre ++ (g ++ (q2 ++ [')'])), g, x) := by
  have hgp : ∀ c ∈ g, (fun c => !(isStop c)) c = true := by
    intro c hc
    simp [hgs c hc]
  unfold cssTail
  rcases hq2 with rfl | ⟨b, rfl, hb⟩
  · have htw : (g ++ ([] ++ (')' :: x))).takeWhile (fun c => !(isStop c)) =
        g := by
      simp only [List.nil_append]
      exact takeWhile_append_stop _ g x ')' hgp (by simp [isStop])
    have hdw : (g ++ ([] ++ (')' :: x))).dropWhile (fun c => !(isStop c)) =
        ')' :: x := by
      simp only [List.nil_append]
      rw [dropWhile_append_all _ g (')' :: x) hgp]
      rw [List.dropWhile_cons_of_neg (by simp [isStop])]
    rw [htw, hdw]
    simp [hg]
  · have hbs : isStop b = true := isQ_isStop b hb
    have htw : (g ++ ([b] ++ (')' :: x))).takeWhile (fun c => !(isStop c)) =
        g := by
      show (g ++ (b :: (')' :: x))).takeWhile (fun c => !(isStop c)) = g
      exact takeWhile_append_stop _ g (')' :: x) b hgp (by simp [hbs])
    have hdw : (g ++ ([b] ++ (')' :: x))).dropWhile (fun c => !(isStop c)) =
        b :: ')' :: x := by
      show (g ++ (b :: (')' :: x))).dropWhile (fun c => !(isStop c)) = _
      rw [dropWhile_append_all _ g (b :: ')' :: x) hgp]
      rw [List.dropWhile_cons_of_neg (by simp [hbs])]
    rw [htw, hdw]
    rw [if_neg (by simpa using hg)]
    dsimp only
    rw [if_neg (isQ_ne_close b hb)]
    simp

theorem tryCss_prepend (litc g x q1 q2 : List Char)
    (hci : ciEqList litc urlLit = true)
    (hq1 : q1 = [] ∨ ∃ a, q1 = [a] ∧ isQ a = true)
    (hq2 : q2 = [] ∨ ∃ a, q2 = [a] ∧ isQ a = true)
    (hg : g ≠ []) (hgs : ∀ c ∈ g, isStop c = false) :
    tryCss ((litc ++ q1 ++ (g ++ q2 ++ [')'])) ++ x) =
      some (litc ++ q1 ++ (g ++ q2 ++ [')']), g, x) := by
  unfold tryCss
  have he : (litc ++ q1 ++ (g ++ q2 ++ [')'])) ++ x =
      litc ++ (q1 ++ (g ++ (q2 ++ (')' :: x)))) := by simp
  rw [he, ciPrefix_of_ciEq urlLit litc _ hci]
  rcases hq1 with rfl | ⟨a, rfl, ha⟩
  · simp only [List.nil_append]
    cases g with
    | nil => exact absurd rfl hg
    | cons c0 g' =>
      simp only [List.cons_append]
      rw [if_neg (by simp [nonstop_not_q c0 (hgs c0 (by simp))])]
      have := cssTail_closed litc (c0 :: g') q2 x hq2 (by simp) hgs
      simp only [List.cons_append] at this
      rw [this]
      simp
  · simp only [List.cons_append, List.nil_append]
    rw [if_pos ha]
    rw [cssTail_closed (litc ++ [a]) g q2 x hq2 hg hgs]
    simp

theorem ciEq_cons_inv (a : List Char) (l : Char) (ls : List Char)
    (h : ciEqList a (l :: ls) = true) :
    ∃ c cs, a = c :: cs ∧ c.toLower = l.toLower ∧ ciEqList cs ls = true := by
  cases a with
  | nil => simp [ciEqList] at h
  | cons c cs =>
    simp only [ciEqList, Bool.and_eq_true, decide_eq_true_eq] at h
    exact ⟨c, cs, rfl, h.1, h.2⟩

theorem cssReplace_head (cb : String → String → String)
    (hcb : CbGoodCss cb) (s : List Char) :
    (cssReplace cb s).head?.map Char.toLower = s.head?.map Char.toLower := by
  cases s with
  | nil => rfl
  | cons c t =>
    cases htry : tryCss (c :: t) with
    | some res =>
      obtain ⟨w, g, r⟩ := res
      rw [cssReplace_cons_some cb c t w g r htry]
      obtain ⟨litc, q1, q2, hw, hcs, hci, hq1, hq2, hg, hgs⟩ :=
        tryCss_some_inv (c :: t) w g r htry
      obtain ⟨c0, litc', hlitc, hc0, -⟩ :=
        ciEq_cons_inv litc 'u' ("rl(".toList) hci
      have hc0c : c0 = c := by
        have h2 : (c : Char) :: t = c0 :: (litc' ++ q1 ++ (g ++ q2 ++ [')'])
            ++ r) := by
          rw [hcs, hw, hlitc]
          simp
        have := congrArg List.head? h2
        simpa using this.symm
      rcases hcb litc g q1 q2 hci hq1 hq2 hg hgs with hkeep |
        ⟨rp, hout, -, -, -⟩
      · rw [← hw] at hkeep
        rw [hkeep, toList_mk, hw, hlitc]
        simp [hc0c]
      · rw [← hw] at hout
        rw [hout]
        have : c.toLower = 'u' := by rw [← hc0c, hc0]; rfl
        simp [urlLit, this]
    | none =>
      rw [cssReplace_cons_none cb c t htry]
      rfl

theorem tryCss_none_head (c : Char) (t : List Char)
    (hc : ¬ c.toLower = 'u') : tryCss (c :: t) = none := by
  unfold tryCss
  have : ciPrefix urlLit (c :: t) = none := by
    show ciPrefix ('u' :: "rl(".toList) (c :: t) = none
    unfold ciPrefix
    rw [if_neg (by simpa using hc)]
  rw [this]

theorem cssReplace_inert (cb : String → String → String) (a x : List Char)
    (ha : ∀ c ∈ a, ¬ c.toLower = 'u') :
    cssReplace cb (a ++ x) = a ++ cssReplace cb x := by
  induction a with
  | nil => rfl
  | cons c t ih =>
    rw [List.cons_append,
      cssReplace_cons_none cb c (t ++ x)
        (tryCss_none_head c (t ++ x) (ha c (by simp))),
      ih (fun d hd => ha d (by simp [hd]))]
    rfl

theorem tryCss_has_paren (cs w g r : List Char)
    (h : tryCss cs = some (w, g, r)) : ')' ∈ cs := by
  obtain ⟨litc, q1, q2, hw, hcs, -, -, -, -, -⟩ := tryCss_some_inv cs w g r h
  rw [hcs, hw]
  simp

theorem cssReplace_no_paren (cb : String → String → String) :
    ∀ cs : List Char, ')' ∉ cs → cssReplace cb cs = cs := by
  intro cs
  induction cs with
  | nil => intro _; rfl
  | cons c t ih =>
    intro h
    cases htry : tryCss (c :: t) with
    | some res =>
      obtain ⟨w, g, r⟩ := res
      exact absurd (tryCss_has_paren (c :: t) w g r htry) h
    | none =>
      rw [cssReplace_cons_none cb c t htry, ih (fun hm => h (by simp [hm]))]

theorem cssCiPrefix_none_stable (cb : String → String → String)
    (hcb : CbGoodCss cb) :
    ∀ lit' s, (∀ c ∈ lit', ¬ c.toLower = 'u') → ciPrefix lit' s = none →
      ciPrefix lit' (cssReplace cb s) = none := by
  intro lit'
  induction lit' with
  | nil => intro s _ h; simp [ciPrefix] at h
  | cons l ls ih =>
    intro s hl h
    cases s with
    | nil => simpa [cssReplace, cssReplaceFuel] using h
    | cons a t =>
      by_cases hal : a.toLower = l.toLower
      · have hna : ¬ a.toLower = 'u' := by
          rw [hal]; exact hl l (by simp)
        rw [cssReplace_cons_none cb a t (tryCss_none_head a t hna)]
        unfold ciPrefix at h ⊢
        rw [if_pos hal] at h ⊢
        have hrec : ciPrefix ls t = none := by
          cases hrect : ciPrefix ls t with
          | none => rfl
          | some pr => rw [hrect] at h; obtain ⟨x, y⟩ := pr; simp at h
        rw [ih t (fun d hd => hl d (by simp [hd])) hrec]
      · cases hout : cssReplace cb (a :: t) with
        | nil => simp [ciPrefix]
        | cons b u =>
          have hb : b.toLower = a.toLower := by
            have := cssReplace_head cb hcb (a :: t)
            rw [hout] at this
            simpa using this
          unfold ciPrefix
          rw [if_neg (by rw [hb]; exact hal)]

theorem urlLit_nonstop : ∀ d ∈ urlLit, isStop d = false := by
  intro d hd
  rw [show urlLit = ['u', 'r', 'l', '('] from rfl] at hd
  fin_cases hd <;> decide

theorem cssReplace_doomed (cb : String → String → String)
    (hcb : CbGoodCss cb) :
    ∀ B e x, (∀ c ∈ B, isStop c = false) → isQ e = true →
      (x = [] ∨ ∃ f y, x = f :: y ∧ f ≠ ')') →
      Doomed (cssReplace cb (B ++ e :: x)) := by
  intro B
  induction B with
  | nil =>
    intro e x hB hq hx
    have he : ¬ e.toLower = 'u' := by
      rw [stop_toLower_self e (isQ_isStop e hq)]
      intro hcontr
      rw [hcontr] at hq
      exact absurd hq (by decide)
    rw [List.nil_append, cssReplace_cons_none cb e x (tryCss_none_head e x he)]
    refine Or.inr ⟨[], e, cssReplace cb x, rfl, by simp, hq, ?_⟩
    rcases hx with rfl | ⟨f, y, rfl, hf⟩
    · left; rfl
    · right
      cases hout : cssReplace cb (f :: y) with
      | nil =>
        have := cssReplace_head cb hcb (f :: y)
        rw [hout] at this
        simp at this
      | cons f' y' =>
        refine ⟨f', y', rfl, ?_⟩
        have hf' : f'.toLower = f.toLower := by
          have := cssReplace_head cb hcb (f :: y)
          rw [hout] at this
          simpa using this
        rintro rfl
        exact hf (toLower_stop_eq ')' f hf'.symm (by decide))
  | cons c B' ih =>
    intro e x hB hq hx
    rw [List.cons_append]
    cases htry : tryCss (c :: (B' ++ e :: x)) with
    | none =>
      rw [cssReplace_cons_none cb c _ htry]
      have hd := ih e x (fun d hd => hB d (by simp [hd])) hq hx
      rcases hd with hns | ⟨B2, e2, x2, heq, hB2, he2, hx2⟩
      · left
        intro d hd
        rcases List.mem_cons.mp hd with rfl | hd'
        · exact hB d (by simp)
        · exact hns d hd'
      · right
        refine ⟨c :: B2, e2, x2, by simp [heq], ?_, he2, hx2⟩
        intro d hd
        rcases List.mem_cons.mp hd with rfl | hd'
        · exact hB d (by simp)
        · exact hB2 d hd'
    | some res =>
      obtain ⟨w, g, r⟩ := res
      rw [cssReplace_cons_some cb c _ w g r htry]
      obtain ⟨litc, q1, q2, hw, hcs, hci, hq1, hq2, hg, hgs⟩ :=
        tryCss_some_inv _ w g r htry
      have hes : isStop e = true := isQ_isStop e hq
      have hdw1 : (c :: (B' ++ e :: x)).dropWhile (fun d => !(isStop d)) =
          e :: x := by
        show ((c :: B') ++ (e :: x)).dropWhile (fun d => !(isStop d)) = e :: x
        rw [dropWhile_append_all _ (c :: B') (e :: x)
          (fun a ha => by simp [hB a ha])]
        rw [List.dropWhile_cons_of_neg (by simp [hes])]
      have hlits : ∀ d ∈ litc, isStop d = false := ciEq_urlLit_nonstop litc hci
      rcases hq1 with hq1e | ⟨a, hq1a, ha⟩
      · subst hq1e
        rcases hq2 with hq2e | ⟨b, hq2b, hb⟩
        · subst hq2e
          have hdw2 : (c :: (B' ++ e :: x)).dropWhile (fun d => !(isStop d)) =
              ')' :: r := by
            rw [hcs, hw]
            have hassoc : (litc ++ [] ++ (g ++ [] ++ [')'])) ++ r =
                (litc ++ g) ++ (')' :: r) := by simp
            rw [hassoc]
            rw [dropWhile_append_all _ (litc ++ g) _ (fun a ha => by
              rcases List.mem_append.mp ha with h1 | h2
              · simp [hlits a h1]
              · simp [hgs a h2])]
            rw [List.dropWhile_cons_of_neg (by simp [isStop])]
          rw [hdw1] at hdw2
          have he2 : e = ')' := by
            injection hdw2
          rw [he2] at hq
          exact absurd hq (by decide)
        · subst hq2b
          have hdw2 : (c :: (B' ++ e :: x)).dropWhile (fun d => !(isStop d)) =
              b :: (')' :: r) := by
            rw [hcs, hw]
            have hassoc : (litc ++ [] ++ (g ++ [b] ++ [')'])) ++ r =
                (litc ++ g) ++ (b :: (')' :: r)) := by simp
            rw [hassoc]
            rw [dropWhile_append_all _ (litc ++ g) _ (fun a ha => by
              rcases List.mem_append.mp ha with h1 | h2
              · simp [hlits a h1]
              · simp [hgs a h2])]
            rw [List.dropWhile_cons_of_neg (by simp [isQ_isStop b hb])]
          rw [hdw1] at hdw2
          have hx2 : x = ')' :: r := by
            injection hdw2
          rcases hx with rfl | ⟨f, y, hxe, hf⟩
          · cases hx2
          · rw [hxe] at hx2
            injection hx2 with h1 h2
            exact absurd h1 hf
      · subst hq1a
        have has : isStop a = true := isQ_isStop a ha
        have hdw2 : (c :: (B' ++ e :: x)).dropWhile (fun d => !(isStop d)) =
            a :: (g ++ (q2 ++ ')' :: r)) := by
          rw [hcs, hw]
          have hassoc : (litc ++ [a] ++ (g ++ q2 ++ [')'])) ++ r =
              litc ++ (a :: (g ++ (q2 ++ ')' :: r))) := by simp
          rw [hassoc]
          rw [dropWhile_append_all _ litc _ (fun d hd => by
            simp [hlits d hd])]
          rw [List.dropWhile_cons_of_neg (by simp [has])]
        rw [hdw1] at hdw2
        obtain ⟨hea, hxg⟩ : e = a ∧ x = g ++ (q2 ++ ')' :: r) := by
          refine ⟨?_, ?_⟩ <;> injection hdw2
        subst hea
        rcases hcb litc g [e] q2 hci (Or.inr ⟨e, rfl, hq⟩) hq2 hg hgs with
          hkeep | ⟨rp, hout, hrpne, hrps, -⟩
        · rw [← hw] at hkeep
          rw [hkeep, toList_mk]
          right
          refine ⟨litc, e, g ++ (q2 ++ ')' :: cssReplace cb r), ?_, hlits,
            hq, ?_⟩
          · rw [hw]
            simp
          · right
            cases g with
            | nil => exact absurd rfl hg
            | cons f y =>
              exact ⟨f, y ++ (q2 ++ ')' :: cssReplace cb r), by simp,
                nonstop_ne_close f (hgs f (by simp))⟩
        · rw [← hw] at hout
          rw [hout]
          right
          refine ⟨urlLit, '"', rp ++ ['"', ')'] ++ cssReplace cb r, ?_,
            urlLit_nonstop, by decide, ?_⟩
          · simp
          · right
            cases rp with
            | nil => exact absurd rfl hrpne
            | cons f y =>
              exact ⟨f, y ++ ['"', ')'] ++ cssReplace cb r, by simp,
                nonstop_ne_close f (hrps f (by simp))⟩

theorem cssTail_none_pre (pre pre2 u : List Char)
    (h : cssTail pre u = none) : cssTail pre2 u = none := by
  unfold cssTail at h ⊢
  split at h
  next htk => rw [if_pos htk]
  next htk =>
    rw [if_neg htk]
    cases hdw : u.dropWhile (fun c => !(isStop c)) with
    | nil => rfl
    | cons e rest =>
      rw [hdw] at h
      dsimp only at h ⊢
      by_cases he : e = ')'
      · rw [if_pos he] at h
        cases h
      · rw [if_neg he] at h ⊢
        cases rest with
        | nil => rfl
        | cons f r2 =>
          by_cases hf : f = ')'
          · subst hf
            simp at h
          · split
            next heqc =>
              injection heqc with h1 h2
              exact absurd h1 hf
            next => rfl

theorem cssTail_none_of_doomed (pre v : List Char) (hd : Doomed v) :
    cssTail pre v = none := by
  unfold cssTail
  rcases hd with hns | ⟨B2, e2, x2, heq, hB2, he2, hx2⟩
  · split
    next => rfl
    next htk =>
      have hdw : v.dropWhile (fun c => !(isStop c)) = [] := by
        rw [List.dropWhile_eq_nil_iff]
        intro a ha
        simp [hns a ha]
      rw [hdw]
  · have htw : v.takeWhile (fun c => !(isStop c)) = B2 := by
      rw [heq]
      exact takeWhile_append_stop _ B2 x2 e2 (fun a ha => by simp [hB2 a ha])
        (by simp [isQ_isStop e2 he2])
    have hdw : v.dropWhile (fun c => !(isStop c)) = e2 :: x2 := by
      rw [heq]
      rw [dropWhile_append_all _ B2 (e2 :: x2)
        (fun a ha => by simp [hB2 a ha])]
      rw [List.dropWhile_cons_of_neg (by simp [isQ_isStop e2 he2])]
    split
    next => rfl
    next htk =>
      rw [hdw]
      dsimp only
      rw [if_neg (isQ_ne_close e2 he2)]
      rcases hx2 with rfl | ⟨f, y, hxe, hf⟩
      · rfl
      · rw [hxe]
        split
        next heqc =>
          injection heqc with h1 h2
          exact absurd h1 hf
        next => rfl

theorem cssTail_none_stable (cb : String → String → String)
    (hcb : CbGoodCss cb) (pre pre2 : List Char) (u : List Char)
    (h : cssTail pre u = none) : cssTail pre2 (cssReplace cb u) = none := by
  cases hdw : u.dropWhile (fun c => !(isStop c)) with
  | nil =>
    have hns : ∀ a ∈ u, isStop a = false := by
      have := List.dropWhile_eq_nil_iff.mp hdw
      intro a ha
      simpa using this a ha
    rw [cssReplace_no_paren cb u (fun hm => by
      have := hns ')' hm
      simp [isStop] at this)]
    unfold cssTail at h ⊢
    split at h
    next htk => rw [if_pos htk]
    next htk =>
      rw [if_neg htk]
      rw [hdw] at h ⊢
  | cons e rest =>
    have hu : u = u.takeWhile (fun c => !(isStop c)) ++ (e :: rest) := by
      conv_lhs => rw [← List.takeWhile_append_dropWhile
        (p := fun c => !(isStop c)) (l := u)]
      rw [hdw]
    have hAs : ∀ c ∈ u.takeWhile (fun c => !(isStop c)), isStop c = false := by
      intro c hc
      have := List.mem_takeWhile_imp hc
      simpa using this
    have hes : isStop e = true := by
      have := head?_dropWhile_ne (fun c => !(isStop c)) u e (by rw [hdw]; rfl)
      simpa using this
    by_cases hA : u.takeWhile (fun c => !(isStop c)) = []
    · rw [hA] at hu
      rw [hu]
      have he' : ¬ e.toLower = 'u' := by
        rw [stop_toLower_self e hes]
        intro hcontr
        rw [hcontr] at hes
        exact absurd hes (by decide)
      rw [List.nil_append, cssReplace_cons_none cb e rest
        (tryCss_none_head e rest he')]
      unfold cssTail
      rw [if_pos (List.takeWhile_cons_of_neg (by simp [hes]))]
    · by_cases he : e = ')'
      · exfalso
        subst he
        have := cssTail_closed pre (u.takeWhile (fun c => !(isStop c))) []
          rest (Or.inl rfl) hA hAs
        simp only [List.nil_append] at this
        rw [← hu] at this
        rw [this] at h
        cases h
      · have heq : isQ e = true := isQ_of_stop_ne e hes he
        cases rest with
        | nil =>
          rw [cssReplace_no_paren cb u (fun hm => by
            rw [hu] at hm
            rcases List.mem_append.mp hm with h1 | h2
            · have := hAs ')' h1
              simp [isStop] at this
            · rcases List.mem_cons.mp h2 with h3 | h3
              · exact he h3.symm
              · simp at h3)]
          exact cssTail_none_pre pre pre2 u h
        | cons f rest2 =>
          by_cases hf : f = ')'
          · exfalso
            subst hf
            have := cssTail_closed pre (u.takeWhile (fun c => !(isStop c)))
              [e] rest2 (Or.inr ⟨e, rfl, heq⟩) hA hAs
            have hshape : u.takeWhile (fun c => !(isStop c)) ++
                ([e] ++ (')' :: rest2)) = u := by
              conv_rhs => rw [hu]
              simp
            rw [hshape] at this
            rw [this] at h
            cases h
          · have hd : Doomed (cssReplace cb u) := by
              rw [hu]
              exact cssReplace_doomed cb hcb _ e (f :: rest2) hAs heq
                (Or.inr ⟨f, rest2, rfl, hf⟩)
            exact cssTail_none_of_doomed pre2 _ hd

theorem isQ_not_u (d : Char) (hq : isQ d = true) : ¬ d.toLower = 'u' := by
  rw [stop_toLower_self d (isQ_isStop d hq)]
  rintro rfl
  exact absurd hq (by decide)

theorem ciPrefix_url_cons (c : Char) (x : List Char) (hch : c.toLower = 'u') :
    ciPrefix urlLit (c :: x) =
      match ciPrefix ("rl(".toList) x with
      | some (a, r) => some (c :: a, r)
      | none => none := by
  conv_lhs => rw [show urlLit = 'u' :: "rl(".toList from rfl]
  conv_lhs => unfold ciPrefix
  rw [if_pos (by simpa using hch)]

theorem tryCss_none_stable (cb : String → String → String)
    (hcb : CbGoodCss cb) (c : Char) (s : List Char)
    (h : tryCss (c :: s) = none) :
    tryCss (c :: cssReplace cb s) = none := by
  by_cases hch : c.toLower = 'u'
  case neg => exact tryCss_none_head c _ hch
  case pos =>
    cases hcp4 : ciPrefix ("rl(".toList) s with
    | none =>
      have hst := cssCiPrefix_none_stable cb hcb ("rl(".toList) s
        (by intro d hd
            rw [show ("rl(".toList : List Char) = ['r', 'l', '('] from rfl]
              at hd
            fin_cases hd <;> decide) hcp4
      unfold tryCss
      rw [ciPrefix_url_cons c _ hch, hst]
    | some pr =>
      obtain ⟨litc4, cs1⟩ := pr
      obtain ⟨hs4, hci4⟩ := ciPrefix_some_split _ s litc4 cs1 hcp4
      have hlit4u : ∀ d ∈ litc4, ¬ d.toLower = 'u' :=
        ciEq_urlLit_not_u_tail litc4 hci4
      have hcifull : ciEqList (c :: litc4) urlLit = true := by
        rw [show urlLit = 'u' :: "rl(".toList from rfl]
        simp only [ciEqList, Bool.and_eq_true, decide_eq_true_eq]
        exact ⟨by simpa using hch, hci4⟩
      have hfull : ciPrefix urlLit (c :: s) = some (c :: litc4, cs1) := by
        have hrw : c :: s = (c :: litc4) ++ cs1 := by rw [hs4]; rfl
        rw [hrw]
        exact ciPrefix_of_ciEq urlLit (c :: litc4) cs1 hcifull
      have hRs : cssReplace cb s = litc4 ++ cssReplace cb cs1 := by
        rw [hs4]
        exact cssReplace_inert cb litc4 cs1 hlit4u
      have hfull2 : ciPrefix urlLit (c :: (litc4 ++ cssReplace cb cs1)) =
          some (c :: litc4, cssReplace cb cs1) := by
        have hrw : c :: (litc4 ++ cssReplace cb cs1) =
            (c :: litc4) ++ cssReplace cb cs1 := rfl
        rw [hrw]
        exact ciPrefix_of_ciEq urlLit _ _ hcifull
      unfold tryCss at h
      rw [hfull] at h
      unfold tryCss
      rw [hRs, hfull2]
      dsimp only at h ⊢
      cases cs1 with
      | nil => simp [cssReplace, cssReplaceFuel]
      | cons d ds =>
        dsimp only at h
        by_cases hqd : isQ d = true
        · rw [if_pos hqd] at h
          have hRd : cssReplace cb (d :: ds) = d :: cssReplace cb ds :=
            cssReplace_cons_none cb d ds
              (tryCss_none_head d ds (isQ_not_u d hqd))
          rw [hRd]
          dsimp only
          rw [if_pos hqd]
          exact cssTail_none_stable cb hcb ((c :: litc4) ++ [d])
            ((c :: litc4) ++ [d]) ds h
        · rw [if_neg hqd] at h
          cases hout : cssReplace cb (d :: ds) with
          | nil =>
            have := cssReplace_head cb hcb (d :: ds)
            rw [hout] at this
          | cons d' u' =>
            have hd' : d'.toLower = d.toLower := by
              have := cssReplace_head cb hcb (d :: ds)
              rw [hout] at this
              simpa using this
            have hqd' : isQ d' = false := by
              cases hq2 : isQ d' with
              | false => rfl
              | true =>
                exfalso
                have : d' = d := by
                  rw [stop_toLower_self d' (isQ_isStop d' hq2)] at hd'
                  exact toLower_eq_stop d d' (isQ_isStop d' hq2) hd'.symm |>.symm
                rw [this] at hq2
                rw [hq2] at hqd
                exact hqd rfl
            dsimp only
            rw [if_neg (by rw [hqd']; exact Bool.false_ne_true)]
            rw [← hout]
            exact cssTail_none_stable cb hcb (c :: litc4) (c :: litc4)
              (d :: ds) h

theorem ciEq_urlLit_refl : ciEqList urlLit urlLit = true := by decide

theorem cssReplace_css_idem (cb : String → String → String)
    (hcb : CbGoodCss cb) :
    ∀ n s, s.length ≤ n →
      cssReplace cb (cssReplace cb s) = cssReplace cb s := by
  intro n
  induction n with
  | zero =>
    intro s hs
    have : s = [] := List.length_eq_zero.mp (Nat.le_zero.mp hs)
    subst this
    rfl
  | succ n ih =>
    intro s hs
    cases s with
    | nil => rfl
    | cons c t =>
      simp only [List.length_cons] at hs
      cases htry : tryCss (c :: t) with
      | some res =>
        obtain ⟨w, g, r⟩ := res
        rw [cssReplace_cons_some cb c t w g r htry]
        obtain ⟨litc, q1, q2, hw, hcs, hci, hq1, hq2, hg, hgs⟩ :=
          tryCss_some_inv (c :: t) w g r htry
        have hrlen : r.length ≤ n := by
          have := tryCss_rest_lt (c :: t) w g r htry
          simp only [List.length_cons] at this
          omega
        rcases hcb litc g q1 q2 hci hq1 hq2 hg hgs with hkeep |
          ⟨rp, hout, hrpne, hrps, hkeep2⟩
        · rw [hw, hkeep, toList_mk]
          have hmatch := tryCss_prepend litc g (cssReplace cb r) q1 q2
            hci hq1 hq2 hg hgs
          rw [cssReplace_eq_of_some cb _ _ _ _ hmatch]
          rw [hkeep, toList_mk, ih r hrlen]
        · rw [hw, hout]
          have hmatch := tryCss_prepend urlLit rp (cssReplace cb r)
            ['"'] ['"'] ciEq_urlLit_refl (Or.inr ⟨'"', rfl, rfl⟩)
            (Or.inr ⟨'"', rfl, rfl⟩) hrpne hrps
          have hsh : urlLit ++ '"' :: (rp ++ ['"', ')']) ++ cssReplace cb r =
              (urlLit ++ ['"'] ++ (rp ++ ['"'] ++ [')'])) ++
                cssReplace cb r := by
            simp
          rw [hsh, cssReplace_eq_of_some cb _ _ _ _ hmatch]
          have hsh2 : (⟨urlLit ++ ['"'] ++ (rp ++ ['"'] ++ [')'])⟩ : String) =
              ⟨urlLit ++ '"' :: (rp ++ ['"', ')'])⟩ := by
            congr 1
            simp
          rw [hsh2, hkeep2, toList_mk, ih r hrlen]
          simp
      | none =>
        rw [cssReplace_cons_none cb c t htry]
        have hst := tryCss_none_stable cb hcb c t htry
        rw [cssReplace_cons_none cb c _ hst]
        rw [ih t (by omega)]

theorem cssCb_good (m : List (String × String))
    (resolve relp : String → String) (henv : GoodCssEnv m resolve relp) :
    CbGoodCss (cssCb m resolve relp) := by
  intro litc g q1 q2 hci hq1 hq2 hg hgs
  unfold cssCb
  dsimp only
  rw [toList_mk]
  split
  next => left; rfl
  next =>
    cases hlk : cssLookup m resolve ⟨trimL g⟩ with
    | none =>
      left
      rfl
    | some lp =>
      right
      obtain ⟨hne, hns, htr, hmiss⟩ := henv lp
      refine ⟨(relp lp).toList, ?_, ?_, hns, ?_⟩
      · rfl
      · intro hnil
        apply hne
        rw [← mk_toList (relp lp), hnil]
      · rw [toList_mk, htr, mk_toList]
        split
        next => rfl
        next =>
          rw [hmiss]

/-- Claim C4 (amended): the url() rewrite of rewriteHtml is idempotent for
a fixed resolved map and stylesheet path PROVIDED the relative paths it
emits are not themselves rewritable: each path.relative output is
nonempty, free of quotes and closing parentheses, trim-stable, and is not
a key of the resolved map either directly or after URL resolution against
the stylesheet URL.  Without that proviso idempotence fails (see the
counterexample: a map key equal to an emitted relative path makes the
second pass rewrite the first pass's output). -/
theorem cssRewrite_C4_amended (m : List (String × String))
    (resolve relp : String → String) (henv : GoodCssEnv m resolve relp) :
    ∀ css : String,
      cssRewrite m resolve relp (cssRewrite m resolve relp css) =
        cssRewrite m resolve relp css := by
  intro css
  unfold cssRewrite
  congr 1
  rw [toList_mk]
  exact cssReplace_css_idem (cssCb m resolve relp)
    (cssCb_good m resolve relp henv) css.toList.length css.toList le_rfl

/-- Witness for cssRewrite_C4_amended at a concrete environment whose
emitted relative path img/a.png is not a map key directly or resolved:
the rewrite of url(https://s/a.png) is url("img/a.png") and a second
rewrite leaves it unchanged. -/
theorem cssRewrite_C4_amended_witness :
    cssRewrite mC4w resolveC4w relpC4w
      (cssRewrite mC4w resolveC4w relpC4w "url(https://s/a.png)") =
      cssRewrite mC4w resolveC4w relpC4w "url(https://s/a.png)" ∧
    cssRewrite mC4w resolveC4w relpC4w "url(https://s/a.png)" =
      "url(\"img/a.png\")" := by
  have henv : GoodCssEnv mC4w resolveC4w relpC4w := by
    intro lp
    show ("img/a.png" : String) ≠ "" ∧
      (∀ c ∈ ("img/a.png" : String).toList, isStop c = false) ∧
      trimL ("img/a.png" : String).toList = ("img/a.png" : String).toList ∧
      cssLookup mC4w resolveC4w "img/a.png" = none
    refine ⟨by decide, by decide, by decide, by decide⟩
  exact ⟨cssRewrite_C4_amended mC4w resolveC4w relpC4w henv
    "url(https://s/a.png)", by decide⟩

/-! ## Claim C9: the incomplete-page detector -/

set_option maxRecDepth 40000 in
/-- Claim C9 counterexample: contrary to the specification's scenario, a
document whose rendered body text exceeds 200 characters is NOT
necessarily unflagged: the three conditions are a disjunction, so a
one-line document with a 250-character body and no markers is still
flagged by the line-count condition. -/
theorem findBlankPages_C9_counterexample :
    hasBodyContent docC9.toList = true ∧
    hasCfError docC9.toList = false ∧
    isBlankPage docC9 = true :=
  ⟨by decide, by decide, by decide⟩

/-- Claim C9 (amended): the detector flags a stored page document if and
only if at least one of its three conditions holds (line count below 50,
no substantial body-region content above the 200-character minimum, or a
known access-denied/verification-pending marker); consequently a document
under 50 total lines is flagged whatever its body, and a document stops
being flagged after its body text exceeds 200 characters ONLY IF it also
reaches 50 lines and carries no marker — body length alone does not
unflag a short document. -/
theorem findBlankPages_C9_amended (content : String) :
    (isBlankPage content = true ↔
      ((splitOnChar '\n' content.toList).length < 50 ∨
       hasBodyContent content.toList = false ∨
       hasCfError content.toList = true)) ∧
    ((splitOnChar '\n' content.toList).length < 50 →
      isBlankPage content = true) ∧
    (50 ≤ (splitOnChar '\n' content.toList).length →
     hasBodyContent content.toList = true →
     hasCfError content.toList = false →
     isBlankPage content = false) := by
  refine ⟨?_, ?_, ?_⟩
  · unfold isBlankPage
    constructor
    · intro h
      rw [Bool.or_eq_true, Bool.or_eq_true] at h
      rcases h with (h | h) | h
      · exact Or.inl (of_decide_eq_true h)
      · refine Or.inr (Or.inl ?_)
        rw [Bool.not_eq_true'] at h
        exact h
      · exact Or.inr (Or.inr h)
    · intro h
      rw [Bool.or_eq_true, Bool.or_eq_true]
      rcases h with h | h | h
      · exact Or.inl (Or.inl (decide_eq_true h))
      · refine Or.inl (Or.inr ?_)
        rw [Bool.not_eq_true']
        exact h
      · exact Or.inr h
  · intro h
    unfold isBlankPage
    rw [Bool.or_eq_true, Bool.or_eq_true]
    exact Or.inl (Or.inl (decide_eq_true h))
  · intro hl hb hc
    unfold isBlankPage
    rw [hb, hc]
    simp only [Bool.not_true, Bool.or_false]
    rw [decide_eq_false (by omega)]

set_option maxRecDepth 40000 in
/-- Witness for findBlankPages_C9_amended: a one-line stub document is
flagged; the 250-character body behind 50 newlines is not flagged. -/
theorem findBlankPages_C9_amended_witness :
    isBlankPage "<html></html>" = true ∧ isBlankPage docC9b = false := by
  refine ⟨?_, ?_⟩
  · exact (findBlankPages_C9_amended "<html></html>").2.1 (by decide)
  · exact (findBlankPages_C9_amended docC9b).2.2 (by decide) (by decide)
      (by decide)
